import Mathlib

/-!
Verification of the zCurve repository: the bit-interleaving Morton codec
(interlace / deinterlace) and the BIGMIN/LITMAX range scanners
(next_morton / prev_morton / in_range), modelled faithfully from
src/zCurve/zCurve.py and src/pyMorton/pyMorton.py.

Machine integers in the source are Python/gmpy2 arbitrary-precision integers;
they are embedded as Nat.  The gmpy2 xmpz bit-slice operations
c[start:stop:step] (read and assignment) are modelled by sliceRead and
sliceAssign below; c[i] by Nat.testBit / setBitTo.
-/

namespace ZCurve

/-- Model of the gmpy2 xmpz single-bit write c[pos] = b. -/
def setBitTo (c pos : Nat) (b : Bool) : Nat :=
  if b then c ||| 2 ^ pos else (c ||| 2 ^ pos) ^^^ 2 ^ pos

/-- Model of the gmpy2 xmpz slice assignment c[start : stop : step] = v where
the slice has n slots: slot k (k < n), at bit position start + k*step,
receives bit k of v; bits of v beyond the n slots are discarded. -/
def sliceAssign (c start step v : Nat) : Nat → Nat
  | 0 => c
  | n + 1 => sliceAssign (setBitTo c start (v.testBit 0)) (start + step) step (v / 2) n

/-- Model of the gmpy2 xmpz slice read c[start : stop : step] over n slots:
bit k of the result (k < n) is bit start + k*step of c. -/
def sliceRead (c start step : Nat) : Nat → Nat
  | 0 => 0
  | n + 1 => (if c.testBit start then 1 else 0) + 2 * sliceRead c (start + step) step n

/-- Number of slots of the Python slice [start:stop:step] for step > 0. -/
def sliceSlots (start stop step : Nat) : Nat :=
  if start < stop then (stop - start + step - 1) / step else 0

/-- Fuel-driven helper computing the binary length of n (fuel ≥ n suffices). -/
def bitLenAux : Nat → Nat → Nat
  | 0, _ => 0
  | fuel + 1, n => if n = 0 then 0 else bitLenAux fuel (n / 2) + 1

/-- Model of Python int.bit_length(): 0 for 0, otherwise position of the top
set bit plus one. -/
def pyBitLength (n : Nat) : Nat := bitLenAux n n

/-- The derived total bit width used throughout zCurve.py when total_bits is
omitted: bl + (dims - bl % dims) for bl the relevant bit length. -/
def defaultTotal (bl dims : Nat) : Nat := bl + (dims - bl % dims)

/-! ### The bit-plane codec: zCurve.interlace / zCurve.deinterlace -/

/-- The loop of zCurve.interlace: for i, v in enumerate(data_point):
c[i:total_bits:dims] = v, starting at index i0 with accumulator c. -/
def interlaceFrom (dims total : Nat) : Nat → List Nat → Nat → Nat
  | _, [], c => c
  | i, v :: rest, c =>
      interlaceFrom dims total (i + 1) rest (sliceAssign c i dims v (sliceSlots i total dims))

/-- zCurve.interlace with dims and bits_per_dim passed explicitly. -/
def interlace (data : List Nat) (dims bits_per_dim : Nat) : Nat :=
  interlaceFrom dims (dims * bits_per_dim) 0 data 0

/-- zCurve.deinterlace with total_bits passed explicitly:
[int(xmpz(code_point)[i:total_bits:dims]) for i in range(0, dims)]. -/
def deinterlaceW (code dims total : Nat) : List Nat :=
  (List.range dims).map (fun i => sliceRead code i dims (sliceSlots i total dims))

/-- zCurve.deinterlace with the derived default total_bits
(code_point.bit_length() + (dims - code_point.bit_length() % dims)). -/
def deinterlace (code dims : Nat) : List Nat :=
  deinterlaceW code dims (defaultTotal (pyBitLength code) dims)

/-! ### The range scanners: next_morton / prev_morton (BIGMIN / LITMAX) -/

/-- LOAD("1000...", n) at scan position i: n with bit i set to 1 and all lower
bits of the same bit-plane (positions i % dims, i % dims + dims, ..., < i)
cleared; models the statements n[i % dims : i : dims] = 0; n[i] = 1. -/
def load1000 (n i dims : Nat) : Nat :=
  setBitTo (sliceAssign n (i % dims) dims 0 (sliceSlots (i % dims) i dims)) i true

/-- LOAD("0111...", n) at scan position i: n with bit i cleared and all lower
bits of the same bit-plane set; models the statements
n[i % dims : i : dims] = 2**(i+1) - 1; n[i] = 0. -/
def load0111 (n i dims : Nat) : Nat :=
  setBitTo (sliceAssign n (i % dims) dims (2 ^ (i + 1) - 1) (sliceSlots (i % dims) i dims))
    i false

/-- The BIGMIN decision-table loop of pyMorton.next_morton (accumulator taken
by BIGMIN = MIN.copy()).  The fuel argument is i + 1 for the bit position i
being examined; fuel 0 means the loop is exhausted and BIGMIN is returned.
The error value models the ValueError raise of the final else branch. -/
def nextScanP (dims code : Nat) (MIN MAX BIGMIN : Nat) : Nat → Except String Nat
  | 0 => .ok BIGMIN
  | i + 1 =>
    match code.testBit i, MIN.testBit i, MAX.testBit i with
    | false, false, false => nextScanP dims code MIN MAX BIGMIN i
    | false, false, true =>
        nextScanP dims code MIN (load0111 MAX i dims) (load1000 MIN i dims) i
    | false, true, true => .ok MIN
    | true, false, false => .ok BIGMIN
    | true, false, true => nextScanP dims code (load1000 MIN i dims) MAX BIGMIN i
    | true, true, true => nextScanP dims code MIN MAX BIGMIN i
    | _, _, _ => .error "This case not possible because MIN <= MAX"

/-- The BIGMIN loop of zCurve.next_morton; identical to nextScanP except that
the accumulator is taken by the width-limited slice assignment
BIGMIN[0:total_bits] = MIN[0:total_bits], modelled as MIN % 2 ^ total. -/
def nextScanZ (dims total code : Nat) (MIN MAX BIGMIN : Nat) : Nat → Except String Nat
  | 0 => .ok BIGMIN
  | i + 1 =>
    match code.testBit i, MIN.testBit i, MAX.testBit i with
    | false, false, false => nextScanZ dims total code MIN MAX BIGMIN i
    | false, false, true =>
        nextScanZ dims total code MIN (load0111 MAX i dims)
          (load1000 (MIN % 2 ^ total) i dims) i
    | false, true, true => .ok MIN
    | true, false, false => .ok BIGMIN
    | true, false, true => nextScanZ dims total code (load1000 MIN i dims) MAX BIGMIN i
    | true, true, true => nextScanZ dims total code MIN MAX BIGMIN i
    | _, _, _ => .error "This case not possible because MIN <= MAX"

/-- The LITMAX decision-table loop of pyMorton.prev_morton (accumulator taken
by LITMAX = MAX.copy() before the pattern writes). -/
def prevScanP (dims code : Nat) (MIN MAX LITMAX : Nat) : Nat → Except String Nat
  | 0 => .ok LITMAX
  | i + 1 =>
    match code.testBit i, MIN.testBit i, MAX.testBit i with
    | false, false, false => prevScanP dims code MIN MAX LITMAX i
    | false, false, true => prevScanP dims code MIN (load0111 MAX i dims) LITMAX i
    | false, true, true => .ok LITMAX
    | true, false, false => .ok MAX
    | true, false, true =>
        prevScanP dims code (load1000 MIN i dims) MAX (load0111 MAX i dims) i
    | true, true, true => prevScanP dims code MIN MAX LITMAX i
    | _, _, _ => .error "This case not possible because MIN <= MAX"

/-- The LITMAX loop of zCurve.prev_morton; identical to prevScanP except that
the accumulator is taken by LITMAX[0:total_bits] = MAX[0:total_bits],
modelled as MAX % 2 ^ total. -/
def prevScanZ (dims total code : Nat) (MIN MAX LITMAX : Nat) : Nat → Except String Nat
  | 0 => .ok LITMAX
  | i + 1 =>
    match code.testBit i, MIN.testBit i, MAX.testBit i with
    | false, false, false => prevScanZ dims total code MIN MAX LITMAX i
    | false, false, true => prevScanZ dims total code MIN (load0111 MAX i dims) LITMAX i
    | false, true, true => .ok LITMAX
    | true, false, false => .ok MAX
    | true, false, true =>
        prevScanZ dims total code (load1000 MIN i dims) MAX
          (load0111 (MAX % 2 ^ total) i dims) i
    | true, true, true => prevScanZ dims total code MIN MAX LITMAX i
    | _, _, _ => .error "This case not possible because MIN <= MAX"

/-- The derived total bit width of a range-scan call with total_bits omitted:
max(1, code_point, rmin_code, rmax_code).bit_length() rounded via defaultTotal. -/
def scanTotal (code rmin rmax dims : Nat) : Nat :=
  defaultTotal (pyBitLength (max (max 1 code) (max rmin rmax))) dims

/-- zCurve.next_morton (the source has no total_bits parameter here). -/
def next_morton (code rmin rmax dims : Nat) : Except String Nat :=
  nextScanZ dims (scanTotal code rmin rmax dims) code rmin rmax 0
    (scanTotal code rmin rmax dims)

/-- zCurve.prev_morton with total_bits supplied explicitly. -/
def prev_mortonW (code rmin rmax dims total : Nat) : Except String Nat :=
  prevScanZ dims total code rmin rmax 0 total

/-- zCurve.prev_morton with total_bits omitted (default derivation). -/
def prev_morton (code rmin rmax dims : Nat) : Except String Nat :=
  prev_mortonW code rmin rmax dims (scanTotal code rmin rmax dims)

/-- pyMorton.next_morton. -/
def pm_next_morton (code rmin rmax dims : Nat) : Except String Nat :=
  nextScanP dims code rmin rmax 0 (scanTotal code rmin rmax dims)

/-- pyMorton.prev_morton. -/
def pm_prev_morton (code rmin rmax dims : Nat) : Except String Nat :=
  prevScanP dims code rmin rmax 0 (scanTotal code rmin rmax dims)

/-- pyMorton.in_range: fast paths on the interval bounds, otherwise compare
code_point with prev_morton(next_morton(code_point, ...), ...). -/
def pm_in_range (code rmin rmax dims : Nat) : Except String Bool :=
  if code < rmin ∨ rmax < code then .ok false
  else if code = rmin ∨ code = rmax then .ok true
  else
    match pm_next_morton code rmin rmax dims with
    | .error e => .error e
    | .ok n =>
      match pm_prev_morton n rmin rmax dims with
      | .error e => .error e
      | .ok p => .ok (decide (code = p))

/-- zCurve.in_range, modelled with faithful Python call semantics: its
non-fast-path branch evaluates
next_morton(code_point, rmin_code, rmax_code, dims, total_bits) with five
positional arguments, but zCurve.next_morton accepts at most four (it has no
total_bits parameter), so that branch raises TypeError for every strictly
interior code, whatever value total_bits has. -/
def in_range (code rmin rmax dims : Nat) : Except String Bool :=
  if code < rmin ∨ rmax < code then .ok false
  else if code = rmin ∨ code = rmax then .ok true
  else .error
    "TypeError: next_morton() takes from 3 to 4 positional arguments but 5 were given"

/-! ### Box semantics used to state the scanner theorems -/

/-- Coordinate of dimension d encoded in Morton code n: the bit-plane read
over all of n's bits, i.e. the value deinterlace reconstructs for dimension d
at any sufficiently large total width. -/
def mortonCoord (n d dims : Nat) : Nat := sliceRead n d dims (pyBitLength n)

/-- Width-bounded bit-plane value: the plane of dimension d among the low
total bits (total / dims slots). -/
def coordW (n d dims total : Nat) : Nat := sliceRead n d dims (total / dims)

/-- The bounds rmin, rmax encode a coordinatewise-valid query box. -/
def validBox (rmin rmax dims : Nat) : Prop :=
  ∀ d, d < dims → mortonCoord rmin d dims ≤ mortonCoord rmax d dims

/-- Membership of code z in the query box encoded by rmin, rmax. -/
def inBox (z rmin rmax dims : Nat) : Prop :=
  ∀ d, d < dims → mortonCoord rmin d dims ≤ mortonCoord z d dims ∧
    mortonCoord z d dims ≤ mortonCoord rmax d dims

/-- r is the smallest in-box code strictly greater than c. -/
def strictSuccInBox (c rmin rmax dims r : Nat) : Prop :=
  inBox r rmin rmax dims ∧ c < r ∧ ∀ z, inBox z rmin rmax dims → c < z → r ≤ z

/-- r is the largest in-box code strictly smaller than c. -/
def strictPredInBox (c rmin rmax dims r : Nat) : Prop :=
  inBox r rmin rmax dims ∧ r < c ∧ ∀ z, inBox z rmin rmax dims → z < c → z ≤ r

instance (rmin rmax dims : Nat) : Decidable (validBox rmin rmax dims) := by
  unfold validBox
  infer_instance

instance (z rmin rmax dims : Nat) : Decidable (inBox z rmin rmax dims) := by
  unfold inBox
  infer_instance

/-! ### Scan invariants used by the correctness proofs -/

/-- a and b agree on every bit position ≥ m. -/
def eqAbove (a b m : Nat) : Prop := ∀ j, m ≤ j → a.testBit j = b.testBit j

/-- Box membership phrased with the width-bounded planes. -/
def inBoxW (z rmin rmax dims total : Nat) : Prop :=
  ∀ d, d < dims → coordW rmin d dims total ≤ coordW z d dims total ∧
    coordW z d dims total ≤ coordW rmax d dims total

/-- Joint invariant on the working bounds MIN, MAX at loop boundary f (the
positions ≥ f are already processed): both fit in the width, both agree with
CODE above f, the working box sits inside the original box coordinatewise and
stays coordinatewise valid, and every original-box member that agrees with
CODE above f lies in the working box. -/
def scanBounds (dims total code rmin rmax MIN MAX f : Nat) : Prop :=
  MIN < 2 ^ total ∧ MAX < 2 ^ total ∧
  eqAbove MIN code f ∧ eqAbove MAX code f ∧
  (∀ d, d < dims → coordW rmin d dims total ≤ coordW MIN d dims total ∧
      coordW MAX d dims total ≤ coordW rmax d dims total ∧
      coordW MIN d dims total ≤ coordW MAX d dims total) ∧
  (∀ z, z < 2 ^ total → inBoxW z rmin rmax dims total → eqAbove z code f →
      inBoxW z MIN MAX dims total)

/-- Invariant on the BIGMIN accumulator at loop boundary f: either it was
never assigned (0) and every box member above code still agrees with CODE
above f, or it is the least box member above code among those that branched
off at a position ≥ f. -/
def bigminInv (dims total code rmin rmax BIGMIN f : Nat) : Prop :=
  (BIGMIN = 0 ∧ ∀ z, z < 2 ^ total → inBoxW z rmin rmax dims total → code < z →
      eqAbove z code f)
  ∨ (inBoxW BIGMIN rmin rmax dims total ∧ code < BIGMIN ∧ BIGMIN < 2 ^ total ∧
      (∃ jb, f ≤ jb ∧ jb < total ∧ eqAbove BIGMIN code (jb + 1) ∧
        BIGMIN.testBit jb = true ∧ code.testBit jb = false) ∧
      ∀ z, z < 2 ^ total → inBoxW z rmin rmax dims total → code < z →
        eqAbove z code f ∨ BIGMIN ≤ z)

/-- Invariant on the LITMAX accumulator at loop boundary f (mirror image of
bigminInv). -/
def litmaxInv (dims total code rmin rmax LITMAX f : Nat) : Prop :=
  (LITMAX = 0 ∧ ∀ z, z < 2 ^ total → inBoxW z rmin rmax dims total → z < code →
      eqAbove z code f)
  ∨ (inBoxW LITMAX rmin rmax dims total ∧ LITMAX < code ∧ LITMAX < 2 ^ total ∧
      (∃ jb, f ≤ jb ∧ jb < total ∧ eqAbove LITMAX code (jb + 1) ∧
        LITMAX.testBit jb = false ∧ code.testBit jb = true) ∧
      ∀ z, z < 2 ^ total → inBoxW z rmin rmax dims total → z < code →
        eqAbove z code f ∨ z ≤ LITMAX)

/-- Specification met by the value returned by the BIGMIN scan: either 0
when the box holds nothing above code, or the least box member above code. -/
def nextGoal (dims total code rmin rmax r : Nat) : Prop :=
  (r = 0 ∧ ∀ z, z < 2 ^ total → inBoxW z rmin rmax dims total → z ≤ code)
  ∨ (inBoxW r rmin rmax dims total ∧ code < r ∧ r < 2 ^ total ∧
      ∀ z, z < 2 ^ total → inBoxW z rmin rmax dims total → code < z → r ≤ z)

/-- Specification met by the value returned by the LITMAX scan. -/
def prevGoal (dims total code rmin rmax r : Nat) : Prop :=
  (r = 0 ∧ ∀ z, z < 2 ^ total → inBoxW z rmin rmax dims total → code ≤ z)
  ∨ (inBoxW r rmin rmax dims total ∧ r < code ∧ r < 2 ^ total ∧
      ∀ z, z < 2 ^ total → inBoxW z rmin rmax dims total → z < code → z ≤ r)

/-! ### Bit toolkit lemmas -/

theorem testBit_setBitTo (c pos : Nat) (b : Bool) (j : Nat) :
    (setBitTo c pos b).testBit j = if j = pos then b else c.testBit j := by
  unfold setBitTo
  cases b <;> by_cases h : j = pos
  · simp [h]
  · simp [h, (Ne.symm h : pos ≠ j), Nat.testBit_two_pow, Bool.xor_false]
  · simp [h]
  · simp [h, (Ne.symm h : pos ≠ j), Nat.testBit_two_pow, Bool.xor_false]

theorem testBit_sliceAssign_of_ne {step : Nat} :
    ∀ (n c start v j : Nat), (∀ k, k < n → j ≠ start + k * step) →
      (sliceAssign c start step v n).testBit j = c.testBit j := by
  intro n
  induction n with
  | zero => intro c start v j _; rfl
  | succ m ih =>
    intro c start v j h
    have h0 : j ≠ start := by
      have := h 0 (Nat.succ_pos m); simpa using this
    have hrec : ∀ k, k < m → j ≠ (start + step) + k * step := by
      intro k hk e
      exact h (k + 1) (by omega) (by rw [e]; ring)
    show (sliceAssign (setBitTo c start (v.testBit 0)) (start + step) step (v / 2) m).testBit j = _
    rw [ih _ _ _ _ hrec, testBit_setBitTo, if_neg h0]

theorem testBit_sliceAssign_slot {step : Nat} (hstep : 0 < step) :
    ∀ (n c start v k : Nat), k < n →
      (sliceAssign c start step v n).testBit (start + k * step) = v.testBit k := by
  intro n
  induction n with
  | zero => intro c start v k hk; omega
  | succ m ih =>
    intro c start v k hk
    show (sliceAssign (setBitTo c start (v.testBit 0)) (start + step) step (v / 2) m).testBit _ = _
    match k with
    | 0 =>
      have hne : ∀ k, k < m → start + 0 * step ≠ (start + step) + k * step := by
        intro k hk e
        have : step + k * step = 0 * step := by omega
        omega
      rw [testBit_sliceAssign_of_ne _ _ _ _ _ hne, testBit_setBitTo]
      simp
    | k' + 1 =>
      have : start + (k' + 1) * step = (start + step) + k' * step := by ring
      rw [this, ih _ _ _ _ (by omega), Nat.testBit_div_two]

theorem testBit_sliceRead (c step : Nat) :
    ∀ (n start k : Nat), (sliceRead c start step n).testBit k =
      (decide (k < n) && c.testBit (start + k * step)) := by
  intro n
  induction n with
  | zero => intro start k; simp [sliceRead]
  | succ m ih =>
    intro start k
    show ((if c.testBit start then 1 else 0) + 2 * sliceRead c (start + step) step m).testBit k = _
    match k with
    | 0 =>
      rw [Nat.testBit_zero]
      rcases h : c.testBit start with _ | _ <;>
        simp [h, Nat.add_mul_mod_self_left]
    | k' + 1 =>
      rw [Nat.testBit_add_one]
      have hdiv : ((if c.testBit start then 1 else 0) + 2 * sliceRead c (start + step) step m) / 2
          = sliceRead c (start + step) step m := by
        rcases c.testBit start with _ | _ <;> simp +arith [Nat.add_mul_div_left]
      rw [hdiv, ih]
      have : start + step + k' * step = start + (k' + 1) * step := by ring
      rw [this]
      simp [Nat.succ_lt_succ_iff]

theorem sliceRead_lt (c start step : Nat) :
    ∀ n, sliceRead c start step n < 2 ^ n := by
  intro n
  induction n generalizing start with
  | zero => simp [sliceRead]
  | succ m ih =>
    have := ih (start + step)
    show (if c.testBit start then 1 else 0) + 2 * sliceRead c (start + step) step m < 2 ^ (m + 1)
    rcases c.testBit start with _ | _ <;> simp <;> [skip; skip] <;> omega

theorem sliceSlots_iff {step : Nat} (hstep : 0 < step) (start stop k : Nat) :
    k < sliceSlots start stop step ↔ start + k * step < stop := by
  unfold sliceSlots
  by_cases h : start < stop
  · rw [if_pos h, Nat.lt_iff_add_one_le, Nat.le_div_iff_mul_le hstep, Nat.add_mul]
    generalize k * step = m
    omega
  · rw [if_neg h]
    constructor
    · omega
    · intro hc; omega

theorem bitLenAux_zero (fuel : Nat) : bitLenAux fuel 0 = 0 := by
  cases fuel <;> rfl

theorem bitLenAux_lt : ∀ fuel n, n ≤ fuel → n < 2 ^ bitLenAux fuel n := by
  intro fuel
  induction fuel with
  | zero => intro n hn; interval_cases n; simp [bitLenAux]
  | succ m ih =>
    intro n hn
    show n < 2 ^ (if n = 0 then 0 else bitLenAux m (n / 2) + 1)
    by_cases h : n = 0
    · simp [h]
    · rw [if_neg h]
      have hrec : n / 2 ≤ m := by omega
      have := ih (n / 2) hrec
      have h2 : 2 ^ (bitLenAux m (n / 2) + 1) = 2 * 2 ^ bitLenAux m (n / 2) := by ring
      omega

theorem bitLenAux_le : ∀ fuel n k, n ≤ fuel → n < 2 ^ k → bitLenAux fuel n ≤ k := by
  intro fuel
  induction fuel with
  | zero => intro n k _ _; simp [bitLenAux]
  | succ m ih =>
    intro n k hn hk
    show (if n = 0 then 0 else bitLenAux m (n / 2) + 1) ≤ k
    by_cases h : n = 0
    · simp [h]
    · rw [if_neg h]
      have hk0 : k ≠ 0 := by
        intro e; rw [e] at hk; simp at hk; omega
      obtain ⟨k', rfl⟩ : ∃ k', k = k' + 1 := ⟨k - 1, by omega⟩
      have h2 : 2 ^ (k' + 1) = 2 * 2 ^ k' := by ring
      have : n / 2 < 2 ^ k' := by omega
      have := ih (n / 2) k' (by omega) this
      omega

theorem bitLenAux_pos_le : ∀ fuel n, n ≤ fuel → n ≠ 0 →
    0 < bitLenAux fuel n ∧ 2 ^ (bitLenAux fuel n - 1) ≤ n := by
  intro fuel
  induction fuel with
  | zero => intro n hn h0; omega
  | succ m ih =>
    intro n hn h0
    show 0 < (if n = 0 then 0 else bitLenAux m (n / 2) + 1) ∧
      2 ^ ((if n = 0 then 0 else bitLenAux m (n / 2) + 1) - 1) ≤ n
    rw [if_neg h0]
    refine ⟨by omega, ?_⟩
    by_cases h2 : n / 2 = 0
    · rw [h2, bitLenAux_zero]
      simp only [Nat.add_sub_cancel, pow_zero]
      omega
    · have := ih (n / 2) (by omega) h2
      obtain ⟨hpos, hle⟩ := this
      have hexp : bitLenAux m (n / 2) + 1 - 1 = (bitLenAux m (n / 2) - 1) + 1 := by omega
      rw [hexp]
      have : 2 ^ ((bitLenAux m (n / 2) - 1) + 1) = 2 * 2 ^ (bitLenAux m (n / 2) - 1) := by ring
      omega

theorem pyBitLength_lt (n : Nat) : n < 2 ^ pyBitLength n :=
  bitLenAux_lt n n le_rfl

theorem pyBitLength_le {n k : Nat} (h : n < 2 ^ k) : pyBitLength n ≤ k :=
  bitLenAux_le n n k le_rfl h

theorem lt_pow_of_pyBitLength_le {n k : Nat} (h : pyBitLength n ≤ k) : n < 2 ^ k :=
  lt_of_lt_of_le (pyBitLength_lt n) (Nat.pow_le_pow_right (by omega) h)

theorem testBit_false_of_pyBitLength_le {n j : Nat} (h : pyBitLength n ≤ j) :
    n.testBit j = false :=
  Nat.testBit_lt_two_pow (lt_pow_of_pyBitLength_le h)

theorem testBit_interlaceFrom {dims : Nat} (hdims : 0 < dims) :
    ∀ (data : List Nat) (i0 c total j : Nat), i0 + data.length ≤ dims →
      (interlaceFrom dims total i0 data c).testBit j =
        if i0 ≤ j % dims ∧ j % dims < i0 + data.length ∧ j < total
        then (data.getD (j % dims - i0) 0).testBit (j / dims)
        else c.testBit j := by
  intro data
  induction data with
  | nil =>
    intro i0 c total j _
    have : ¬(i0 ≤ j % dims ∧ j % dims < i0 + ([] : List Nat).length ∧ j < total) := by
      rintro ⟨h1, h2, _⟩
      simp at h2
      omega
    rw [if_neg this]
    rfl
  | cons v rest ih =>
    intro i0 c total j hlen
    have hi0 : i0 < dims := by
      simp only [List.length_cons] at hlen
      omega
    have hlen' : (i0 + 1) + rest.length ≤ dims := by
      simp only [List.length_cons] at hlen
      omega
    show (interlaceFrom dims total (i0 + 1) rest
        (sliceAssign c i0 dims v (sliceSlots i0 total dims))).testBit j = _
    rw [ih (i0 + 1) _ total j hlen']
    by_cases hP : (i0 + 1 ≤ j % dims ∧ j % dims < (i0 + 1) + rest.length ∧ j < total)
    · rw [if_pos hP]
      have hQ : i0 ≤ j % dims ∧ j % dims < i0 + (v :: rest).length ∧ j < total := by
        simp only [List.length_cons]
        obtain ⟨a, b, cc⟩ := hP
        exact ⟨by omega, by omega, cc⟩
      rw [if_pos hQ]
      have hidx : j % dims - i0 = (j % dims - (i0 + 1)) + 1 := by
        obtain ⟨a, _, _⟩ := hP
        omega
      rw [hidx, List.getD_cons_succ]
    · rw [if_neg hP]
      by_cases hS : j % dims = i0 ∧ j < total
      · obtain ⟨hS1, hS2⟩ := hS
        have hk : i0 + (j / dims) * dims = j := by
          conv_rhs => rw [← Nat.mod_add_div j dims]
          rw [hS1]
          ring
        have hkslots : j / dims < sliceSlots i0 total dims := by
          rw [sliceSlots_iff hdims, hk]
          exact hS2
        have hslot := testBit_sliceAssign_slot hdims (sliceSlots i0 total dims) c i0 v
          (j / dims) hkslots
        rw [hk] at hslot
        rw [hslot]
        have hQ : i0 ≤ j % dims ∧ j % dims < i0 + (v :: rest).length ∧ j < total := by
          simp only [List.length_cons]
          exact ⟨by omega, by omega, hS2⟩
        rw [if_pos hQ, hS1]
        simp
      · have hne : ∀ k, k < sliceSlots i0 total dims → j ≠ i0 + k * dims := by
          intro k hks e
          have h1 : j % dims = i0 := by
            rw [e, Nat.add_mul_mod_self_right, Nat.mod_eq_of_lt hi0]
          have h2 : j < total := by
            rw [e]
            exact (sliceSlots_iff hdims i0 total k).mp hks
          exact hS ⟨h1, h2⟩
        rw [testBit_sliceAssign_of_ne _ _ _ _ _ hne]
        have hQ : ¬(i0 ≤ j % dims ∧ j % dims < i0 + (v :: rest).length ∧ j < total) := by
          rintro ⟨ha, hb, hc⟩
          rcases Nat.eq_or_lt_of_le ha with he | hlt
          · exact hS ⟨he.symm, hc⟩
          · refine hP ⟨hlt, ?_, hc⟩
            simp only [List.length_cons] at hb
            omega
        rw [if_neg hQ]

theorem testBit_interlace {dims : Nat} (hdims : 0 < dims) (data : List Nat) (bits j : Nat)
    (hlen : data.length = dims) :
    (interlace data dims bits).testBit j =
      if j < dims * bits then (data.getD (j % dims) 0).testBit (j / dims) else false := by
  unfold interlace
  rw [testBit_interlaceFrom hdims data 0 0 (dims * bits) j (by omega)]
  have hmod : j % dims < dims := Nat.mod_lt _ hdims
  by_cases h : j < dims * bits
  · rw [if_pos (by exact ⟨Nat.zero_le _, by omega, h⟩), if_pos h]
    simp
  · rw [if_neg (by rintro ⟨_, _, hc⟩; exact h hc), if_neg h]
    simp

theorem interlace_lt {dims : Nat} (hdims : 0 < dims) (data : List Nat) (bits : Nat)
    (hlen : data.length = dims) :
    interlace data dims bits < 2 ^ (dims * bits) := by
  apply Nat.lt_pow_two_of_testBit
  intro i hi
  rw [testBit_interlace hdims data bits i hlen, if_neg (by omega)]

theorem deinterlaceW_interlace {dims bits : Nat} (hdims : 0 < dims) (data : List Nat)
    (hlen : data.length = dims) (hbound : ∀ x ∈ data, x < 2 ^ bits) :
    deinterlaceW (interlace data dims bits) dims (dims * bits) = data := by
  apply List.ext_getElem
  · simp [deinterlaceW, hlen]
  · intro i h1 h2
    have hi : i < dims := by simpa [deinterlaceW] using h1
    simp only [deinterlaceW, List.getElem_map, List.getElem_range]
    apply Nat.eq_of_testBit_eq
    intro k
    rw [testBit_sliceRead]
    rw [testBit_interlace hdims data bits _ hlen]
    have hmod : (i + k * dims) % dims = i := by
      rw [Nat.add_mul_mod_self_right, Nat.mod_eq_of_lt hi]
    have hdiv : (i + k * dims) / dims = k := by
      rw [Nat.add_mul_div_right _ _ hdims, Nat.div_eq_of_lt hi, Nat.zero_add]
    by_cases h : i + k * dims < dims * bits
    · rw [if_pos h, hmod, hdiv]
      have hk : k < sliceSlots i (dims * bits) dims := by
        rw [sliceSlots_iff hdims]
        exact h
      rw [List.getD_eq_getElem _ _ (by omega)]
      simp [hk]
    · rw [if_neg h]
      have hkb : bits ≤ k := by
        by_contra hc
        push_neg at hc
        apply h
        calc i + k * dims < dims + k * dims := by omega
          _ = (k + 1) * dims := by ring
          _ ≤ bits * dims := Nat.mul_le_mul_right dims (by omega)
          _ = dims * bits := Nat.mul_comm _ _
      have hlt : data[i] < 2 ^ bits := hbound _ (List.getElem_mem h2)
      have : data[i].testBit k = false :=
        Nat.testBit_lt_two_pow (lt_of_lt_of_le hlt (Nat.pow_le_pow_right (by omega) hkb))
      rw [this]
      simp

theorem deinterlaceW_mem_lt {dims bits : Nat} (hdims : 0 < dims) (c : Nat)
    (hc : c < 2 ^ (dims * bits)) :
    ∀ x ∈ deinterlaceW c dims (dims * bits), x < 2 ^ bits := by
  intro x hx
  simp only [deinterlaceW, List.mem_map, List.mem_range] at hx
  obtain ⟨i, hi, rfl⟩ := hx
  apply Nat.lt_pow_two_of_testBit
  intro k hk
  rw [testBit_sliceRead]
  have : c.testBit (i + k * dims) = false := by
    apply Nat.testBit_lt_two_pow
    apply lt_of_lt_of_le hc
    apply Nat.pow_le_pow_right (by omega)
    calc dims * bits = bits * dims := Nat.mul_comm _ _
      _ ≤ k * dims := Nat.mul_le_mul_right dims hk
      _ ≤ i + k * dims := by omega
  rw [this]
  simp

theorem interlace_deinterlaceW {dims bits : Nat} (hdims : 0 < dims) (c : Nat)
    (hc : c < 2 ^ (dims * bits)) :
    interlace (deinterlaceW c dims (dims * bits)) dims bits = c := by
  have hlen : (deinterlaceW c dims (dims * bits)).length = dims := by simp [deinterlaceW]
  apply Nat.eq_of_testBit_eq
  intro j
  rw [testBit_interlace hdims _ bits j hlen]
  by_cases h : j < dims * bits
  · rw [if_pos h]
    have hmod : j % dims < dims := Nat.mod_lt _ hdims
    have hentry : (deinterlaceW c dims (dims * bits)).getD (j % dims) 0
        = sliceRead c (j % dims) dims (sliceSlots (j % dims) (dims * bits) dims) := by
      rw [List.getD_eq_getElem _ _ (by omega)]
      simp [deinterlaceW]
    rw [hentry, testBit_sliceRead]
    have hpos : j % dims + (j / dims) * dims = j := by
      conv_rhs => rw [← Nat.mod_add_div j dims]
      ring
    have hslot : j / dims < sliceSlots (j % dims) (dims * bits) dims := by
      rw [sliceSlots_iff hdims, hpos]
      exact h
    rw [hpos]
    simp [hslot]
  · rw [if_neg h]
    exact (Nat.testBit_lt_two_pow (lt_of_lt_of_le hc
      (Nat.pow_le_pow_right (by omega) (by omega)))).symm

theorem defaultTotal_eq (bl D : Nat) (hD : 1 ≤ D) : defaultTotal bl D = D * (bl / D + 1) := by
  unfold defaultTotal
  have h1 : bl % D < D := Nat.mod_lt _ (by omega)
  have h2 : D * (bl / D) + bl % D = bl := Nat.div_add_mod bl D
  rw [Nat.mul_add, Nat.mul_one]
  omega

theorem defaultTotal_gt (bl D : Nat) (hD : 1 ≤ D) : bl < defaultTotal bl D := by
  unfold defaultTotal
  have h1 : bl % D < D := Nat.mod_lt _ (by omega)
  omega

theorem defaultTotal_dvd (bl D : Nat) (hD : 1 ≤ D) : D ∣ defaultTotal bl D :=
  ⟨bl / D + 1, defaultTotal_eq bl D hD⟩

theorem defaultTotal_min {bl D m : Nat} (hD : 1 ≤ D) (hdvd : D ∣ m) (hgt : bl < m) :
    defaultTotal bl D ≤ m := by
  obtain ⟨t, rfl⟩ := hdvd
  rw [defaultTotal_eq bl D hD]
  have hle : bl / D + 1 ≤ t := by
    by_contra hc
    push_neg at hc
    have h1 : D * t ≤ D * (bl / D) := Nat.mul_le_mul_left D (by omega)
    have h2 : D * (bl / D) ≤ bl := by
      rw [Nat.mul_comm]
      exact Nat.div_mul_le_self bl D
    omega
  exact Nat.mul_le_mul_left D hle

/-! ### Claim theorems: the codec and the width derivation -/

/-- C1: for D ≥ 1 and bits_per_dim b ≥ 1, interlace puts bit k of coordinate i
at bit i + k*D of the output, stays below 2^(D*b) on in-range coordinate
vectors, and is a bijection from the hyper-rectangle of length-D vectors with
coordinates in [0, 2^b) onto [0, 2^(D*b)); in particular it is injective
there. -/
theorem claim_C1 (D b : Nat) (hD : 1 ≤ D) (hb : 1 ≤ b) :
    (∀ v : List Nat, v.length = D → (∀ x ∈ v, x < 2 ^ b) →
      interlace v D b < 2 ^ (D * b) ∧
      ∀ i k, i < D → k < b →
        (interlace v D b).testBit (i + k * D) = (v.getD i 0).testBit k) ∧
    Set.BijOn (fun v : List Nat => interlace v D b)
      {v : List Nat | v.length = D ∧ ∀ x ∈ v, x < 2 ^ b}
      {c : Nat | c < 2 ^ (D * b)} := by
  have hD0 : 0 < D := hD
  constructor
  · intro v hlen hb'
    refine ⟨interlace_lt hD0 v b hlen, ?_⟩
    intro i k hi hk
    rw [testBit_interlace hD0 v b _ hlen]
    have hmod : (i + k * D) % D = i := by
      rw [Nat.add_mul_mod_self_right, Nat.mod_eq_of_lt hi]
    have hdiv : (i + k * D) / D = k := by
      rw [Nat.add_mul_div_right _ _ hD0, Nat.div_eq_of_lt hi, Nat.zero_add]
    have hlt : i + k * D < D * b := by
      calc i + k * D < D + k * D := by omega
        _ = (k + 1) * D := by ring
        _ ≤ b * D := Nat.mul_le_mul_right D (by omega)
        _ = D * b := Nat.mul_comm _ _
    rw [if_pos hlt, hmod, hdiv]
  · refine ⟨?_, ?_, ?_⟩
    · intro v hv
      simp only [Set.mem_setOf_eq] at hv ⊢
      exact interlace_lt hD0 v b hv.1
    · intro v1 hv1 v2 hv2 he
      simp only [Set.mem_setOf_eq] at hv1 hv2
      have h1 := deinterlaceW_interlace hD0 v1 hv1.1 hv1.2
      have h2 := deinterlaceW_interlace hD0 v2 hv2.1 hv2.2
      simp only at he
      rw [← h1, ← h2, he]
    · intro c hc
      simp only [Set.mem_setOf_eq] at hc
      refine ⟨deinterlaceW c D (D * b),
        ⟨by simp [deinterlaceW], deinterlaceW_mem_lt hD0 c hc⟩, ?_⟩
      exact interlace_deinterlaceW hD0 c hc

/-- Witness for C1 at D = 2, b = 3: bit 0 + 2*2 of interlace [5, 3] equals
bit 2 of coordinate 0, and the code fits in 2*3 bits. -/
theorem claim_C1_witness :
    interlace [5, 3] 2 3 < 2 ^ (2 * 3) ∧
      (interlace [5, 3] 2 3).testBit (0 + 2 * 2) = (([5, 3] : List Nat).getD 0 0).testBit 2 := by
  have h := (claim_C1 2 3 (by decide) (by decide)).1 [5, 3] rfl (by decide)
  exact ⟨h.1, h.2 0 2 (by decide) (by decide)⟩

/-- C2: decoding with the same dims and matching total width D*b inverts
encoding on every coordinate vector within range. -/
theorem claim_C2 (D b : Nat) (v : List Nat) (hD : 1 ≤ D) (hb : 1 ≤ b)
    (hlen : v.length = D) (hbound : ∀ x ∈ v, x < 2 ^ b) :
    deinterlaceW (interlace v D b) D (D * b) = v :=
  deinterlaceW_interlace hD v hlen hbound

/-- Witness for C2 at D = 2, b = 4, v = [5, 3]. -/
theorem claim_C2_witness : deinterlaceW (interlace [5, 3] 2 4) 2 (2 * 4) = [5, 3] :=
  claim_C2 2 4 [5, 3] (by decide) (by decide) rfl (by decide)

/-- C8 counterexample: for code 8 (bit length 4) and dims 2, the derived width
is 6, although 4 is already a multiple of 2 that covers the bit length; the
derivation is therefore not the smallest multiple of dims ≥ the bit length. -/
theorem claim_C8_cx :
    defaultTotal (pyBitLength 8) 2 = 6 ∧ 2 ∣ 4 ∧ pyBitLength 8 ≤ 4 ∧
      defaultTotal (pyBitLength 8) 2 ≠ 4 := by decide

/-- C8 amended: whenever total_bits is omitted, deinterlace and the scanners
derive it via defaultTotal from the relevant bit length bl (the code's for
deinterlace, that of max(1, code, rmin, rmax) for the scanners), and
defaultTotal bl D is the smallest multiple of D strictly greater than bl
(hence D more than bl whenever D divides bl, rather than bl itself). -/
theorem claim_C8 (bl D : Nat) (hD : 1 ≤ D) :
    bl < defaultTotal bl D ∧ D ∣ defaultTotal bl D ∧
      (∀ m, D ∣ m → bl < m → defaultTotal bl D ≤ m) ∧
      (∀ code dims, deinterlace code dims
          = deinterlaceW code dims (defaultTotal (pyBitLength code) dims)) ∧
      (∀ c a b dims, scanTotal c a b dims
          = defaultTotal (pyBitLength (max (max 1 c) (max a b))) dims) :=
  ⟨defaultTotal_gt bl D hD, defaultTotal_dvd bl D hD,
    fun _ hdvd hgt => defaultTotal_min hD hdvd hgt,
    fun _ _ => rfl, fun _ _ _ _ => rfl⟩

/-- Witness for C8 at bl = 4, D = 2: the derived width 6 is at most any
multiple of 2 strictly above 4. -/
theorem claim_C8_witness : defaultTotal 4 2 ≤ 6 :=
  (claim_C8 4 2 (by decide)).2.2.1 6 (by decide) (by decide)

/-! ### Claim theorems: concrete scanner evaluations -/

/-- C3 counterexample: with rmin = 0, rmax = 1, D = 1 and code 3 (outside the
box), next_morton returns 0, which is not ≥ 3. -/
theorem claim_C3_cx : next_morton 3 0 1 1 = Except.ok 0 ∧ ¬ (3 : Nat) ≤ 0 :=
  ⟨rfl, by decide⟩

/-- C4 counterexample: at the bounds the scanners return the strict in-box
neighbour, not the bound: next_morton(1, 1, 3, 1) = 2 ≠ 1 and
prev_morton(3, 1, 3, 1) = 2 ≠ 3. -/
theorem claim_C4_cx :
    next_morton 1 1 3 1 = Except.ok 2 ∧ prev_morton 3 1 3 1 = Except.ok 2 ∧
      (2 : Nat) ≠ 1 ∧ (2 : Nat) ≠ 3 :=
  ⟨rfl, rfl, by decide, by decide⟩

/-- C5: for the strictly interior code 2 of [1, 3] with D = 1, zCurve.in_range
raises TypeError (it passes five positional arguments to next_morton, which
accepts at most four), instead of returning the boolean comparison that
pyMorton.in_range computes (true here). -/
theorem claim_C5_bug :
    in_range 2 1 3 1 = Except.error
      "TypeError: next_morton() takes from 3 to 4 positional arguments but 5 were given" ∧
    pm_in_range 2 1 3 1 = Except.ok true :=
  ⟨rfl, rfl⟩

/-- C6 counterexample: with rmin = 1 > rmax = 0 and code 2, next_morton does
not raise; it returns 0 normally, so there is no fail-fast on rmin > rmax. -/
theorem claim_C6_cx : next_morton 2 1 0 1 = Except.ok 0 :=
  rfl

/-- C6 amended: with rmin > rmax there is no uniform fail-fast: depending on
the code point the decision-table scan either raises ValueError (code 0) or
returns a normal result (code 2), for both next_morton and prev_morton; the
source contains no explicit rmin ≤ rmax validation. -/
theorem claim_C6 :
    next_morton 2 1 0 1 = Except.ok 0 ∧ prev_morton 2 1 0 1 = Except.ok 0 ∧
    next_morton 0 1 0 1 = Except.error "This case not possible because MIN <= MAX" ∧
    prev_morton 0 1 0 1 = Except.error "This case not possible because MIN <= MAX" :=
  ⟨rfl, rfl, rfl, rfl⟩

/-- C7 counterexample: the raise is reachable under rmin ≤ rmax: with
rmin = 2, rmax = 5, D = 2 (a pair whose dimension-0 coordinates are inverted)
and code 3 between the bounds, next_morton raises ValueError. -/
theorem claim_C7_cx :
    next_morton 3 2 5 2 = Except.error "This case not possible because MIN <= MAX" ∧
      (2 : Nat) ≤ 5 ∧ (2 : Nat) ≤ 3 ∧ (3 : Nat) ≤ 5 :=
  ⟨rfl, by decide, by decide, by decide⟩

/-- C9 counterexample: with rmin = 4 ≤ rmax = 8 < code = 9 and D = 2,
next_morton does not return 0; it raises ValueError (the bounds are not a
coordinatewise-valid box). -/
theorem claim_C9_cx :
    next_morton 9 4 8 2 = Except.error "This case not possible because MIN <= MAX" ∧
      (4 : Nat) ≤ 8 ∧ (8 : Nat) < 9 :=
  ⟨rfl, by decide, by decide⟩

/-! ### Bit characterization of the LOAD pattern writes -/

theorem slice_pos_iff {dims : Nat} (hdims : 0 < dims) (i j : Nat) :
    (∃ k, k < sliceSlots (i % dims) i dims ∧ j = i % dims + k * dims) ↔
      (j % dims = i % dims ∧ j < i) := by
  constructor
  · rintro ⟨k, hk, rfl⟩
    refine ⟨?_, (sliceSlots_iff hdims _ _ _).mp hk⟩
    rw [Nat.add_mul_mod_self_right, Nat.mod_mod_of_dvd _ (dvd_refl dims)]
  · rintro ⟨hmod, hlt⟩
    refine ⟨j / dims, ?_, ?_⟩
    · rw [sliceSlots_iff hdims]
      have : i % dims + j / dims * dims = j := by
        conv_rhs => rw [← Nat.mod_add_div j dims]
        rw [hmod]
        ring
      rw [this]
      exact hlt
    · conv_lhs => rw [← Nat.mod_add_div j dims]
      rw [hmod]
      ring

theorem testBit_load1000 {dims : Nat} (hdims : 0 < dims) (n i j : Nat) :
    (load1000 n i dims).testBit j =
      if j = i then true
      else if j % dims = i % dims ∧ j < i then false
      else n.testBit j := by
  unfold load1000
  rw [testBit_setBitTo]
  by_cases hji : j = i
  · rw [if_pos hji, if_pos hji]
  · rw [if_neg hji, if_neg hji]
    by_cases hsl : j % dims = i % dims ∧ j < i
    · obtain ⟨k, hk, rfl⟩ := (slice_pos_iff hdims i j).mpr hsl
      rw [testBit_sliceAssign_slot hdims _ _ _ _ _ hk, if_pos hsl]
      simp
    · rw [if_neg hsl]
      apply testBit_sliceAssign_of_ne
      intro k hk e
      exact hsl ((slice_pos_iff hdims i j).mp ⟨k, hk, e⟩)

theorem testBit_load0111 {dims : Nat} (hdims : 0 < dims) (n i j : Nat) :
    (load0111 n i dims).testBit j =
      if j = i then false
      else if j % dims = i % dims ∧ j < i then true
      else n.testBit j := by
  unfold load0111
  rw [testBit_setBitTo]
  by_cases hji : j = i
  · rw [if_pos hji, if_pos hji]
  · rw [if_neg hji, if_neg hji]
    by_cases hsl : j % dims = i % dims ∧ j < i
    · obtain ⟨k, hk, rfl⟩ := (slice_pos_iff hdims i j).mpr hsl
      rw [testBit_sliceAssign_slot hdims _ _ _ _ _ hk, if_pos hsl]
      have hki : k < i + 1 := by
        have h1 := (sliceSlots_iff hdims _ _ _).mp hk
        have h2 : k * 1 ≤ k * dims := Nat.mul_le_mul_left k hdims
        omega
      simp [Nat.testBit_two_pow_sub_one, hki]
    · rw [if_neg hsl]
      apply testBit_sliceAssign_of_ne
      intro k hk e
      exact hsl ((slice_pos_iff hdims i j).mp ⟨k, hk, e⟩)

theorem load1000_lt {dims total : Nat} (hdims : 0 < dims) {n i : Nat}
    (hn : n < 2 ^ total) (hi : i < total) : load1000 n i dims < 2 ^ total := by
  apply Nat.lt_pow_two_of_testBit
  intro j hj
  rw [testBit_load1000 hdims, if_neg (by omega), if_neg (by rintro ⟨_, h⟩; omega)]
  exact Nat.testBit_lt_two_pow (lt_of_lt_of_le hn (Nat.pow_le_pow_right (by omega) hj))

theorem load0111_lt {dims total : Nat} (hdims : 0 < dims) {n i : Nat}
    (hn : n < 2 ^ total) (hi : i < total) : load0111 n i dims < 2 ^ total := by
  apply Nat.lt_pow_two_of_testBit
  intro j hj
  rw [testBit_load0111 hdims, if_neg (by omega), if_neg (by rintro ⟨_, h⟩; omega)]
  exact Nat.testBit_lt_two_pow (lt_of_lt_of_le hn (Nat.pow_le_pow_right (by omega) hj))

/-! ### Equivalence of the zCurve and pyMorton scan loops (C10) -/

theorem nextScanZ_eq_nextScanP {dims total code : Nat} (hdims : 0 < dims) :
    ∀ fuel MIN MAX BIGMIN, fuel ≤ total → MIN < 2 ^ total → MAX < 2 ^ total →
      nextScanZ dims total code MIN MAX BIGMIN fuel = nextScanP dims code MIN MAX BIGMIN fuel := by
  intro fuel
  induction fuel with
  | zero => intro MIN MAX BIGMIN _ _ _; rfl
  | succ i ih =>
    intro MIN MAX BIGMIN hle hMIN hMAX
    rcases hc : code.testBit i with _ | _ <;> rcases hm : MIN.testBit i with _ | _ <;>
      rcases hM : MAX.testBit i with _ | _ <;>
      simp only [nextScanZ, nextScanP, hc, hm, hM]
    · exact ih _ _ _ (by omega) hMIN hMAX
    · rw [Nat.mod_eq_of_lt hMIN]
      exact ih _ _ _ (by omega) hMIN (load0111_lt hdims hMAX (by omega))
    · exact ih _ _ _ (by omega) (load1000_lt hdims hMIN (by omega)) hMAX
    · exact ih _ _ _ (by omega) hMIN hMAX

theorem prevScanZ_eq_prevScanP {dims total code : Nat} (hdims : 0 < dims) :
    ∀ fuel MIN MAX LITMAX, fuel ≤ total → MIN < 2 ^ total → MAX < 2 ^ total →
      prevScanZ dims total code MIN MAX LITMAX fuel = prevScanP dims code MIN MAX LITMAX fuel := by
  intro fuel
  induction fuel with
  | zero => intro MIN MAX LITMAX _ _ _; rfl
  | succ i ih =>
    intro MIN MAX LITMAX hle hMIN hMAX
    rcases hc : code.testBit i with _ | _ <;> rcases hm : MIN.testBit i with _ | _ <;>
      rcases hM : MAX.testBit i with _ | _ <;>
      simp only [prevScanZ, prevScanP, hc, hm, hM]
    · exact ih _ _ _ (by omega) hMIN hMAX
    · exact ih _ _ _ (by omega) hMIN (load0111_lt hdims hMAX (by omega))
    · rw [Nat.mod_eq_of_lt hMAX]
      exact ih _ _ _ (by omega) (load1000_lt hdims hMIN (by omega)) hMAX
    · exact ih _ _ _ (by omega) hMIN hMAX

theorem lt_two_pow_scanTotal (code rmin rmax dims : Nat) (hdims : 1 ≤ dims) :
    code < 2 ^ scanTotal code rmin rmax dims ∧
      rmin < 2 ^ scanTotal code rmin rmax dims ∧
      rmax < 2 ^ scanTotal code rmin rmax dims := by
  have hM : max (max 1 code) (max rmin rmax) < 2 ^ scanTotal code rmin rmax dims := by
    apply lt_of_lt_of_le (pyBitLength_lt _)
    apply Nat.pow_le_pow_right (by omega)
    exact le_of_lt (defaultTotal_gt _ dims hdims)
  refine ⟨lt_of_le_of_lt ?_ hM, lt_of_le_of_lt ?_ hM, lt_of_le_of_lt ?_ hM⟩
  · exact le_max_of_le_left (le_max_right 1 code)
  · exact le_max_of_le_right (le_max_left rmin rmax)
  · exact le_max_of_le_right (le_max_right rmin rmax)

/-- C10: with total_bits omitted, the zCurve and pyMorton versions of
prev_morton and next_morton compute the same result (same value or same
error) on every input, despite the accumulator being taken by a width-limited
slice copy in one and a full copy in the other: the working bounds always fit
inside the derived width, so the slice copy is a full copy. -/
theorem claim_C10 (code rmin rmax dims : Nat) (hdims : 1 ≤ dims) :
    next_morton code rmin rmax dims = pm_next_morton code rmin rmax dims ∧
      prev_morton code rmin rmax dims = pm_prev_morton code rmin rmax dims := by
  obtain ⟨hc, hr, hR⟩ := lt_two_pow_scanTotal code rmin rmax dims hdims
  exact ⟨nextScanZ_eq_nextScanP hdims _ _ _ _ le_rfl hr hR,
    prevScanZ_eq_prevScanP hdims _ _ _ _ le_rfl hr hR⟩

/-- Witness for C10 at code 5, rmin 1, rmax 6, dims 2. -/
theorem claim_C10_witness :
    next_morton 5 1 6 2 = pm_next_morton 5 1 6 2 ∧
      prev_morton 5 1 6 2 = pm_prev_morton 5 1 6 2 :=
  claim_C10 5 1 6 2 (by decide)

/-! ### Generic bit-comparison toolkit -/

theorem eqAbove_shiftRight {a b m : Nat} (h : eqAbove a b m) : a >>> m = b >>> m := by
  apply Nat.eq_of_testBit_eq
  intro k
  rw [Nat.testBit_shiftRight, Nat.testBit_shiftRight]
  exact h (m + k) (by omega)

theorem eqAbove_of_shiftRight {a b m : Nat} (h : a >>> m = b >>> m) : eqAbove a b m := by
  intro j hj
  have ha : a.testBit j = (a >>> m).testBit (j - m) := by
    rw [Nat.testBit_shiftRight]
    congr 1
    omega
  have hb : b.testBit j = (b >>> m).testBit (j - m) := by
    rw [Nat.testBit_shiftRight]
    congr 1
    omega
  rw [ha, hb, h]

theorem eqAbove_symm {a b m : Nat} (h : eqAbove a b m) : eqAbove b a m :=
  fun j hj => (h j hj).symm

theorem eqAbove_trans {a b c m : Nat} (h1 : eqAbove a b m) (h2 : eqAbove b c m) :
    eqAbove a c m :=
  fun j hj => (h1 j hj).trans (h2 j hj)

theorem eqAbove_mono {a b m m' : Nat} (h : eqAbove a b m) (hm : m ≤ m') : eqAbove a b m' :=
  fun j hj => h j (le_trans hm hj)

theorem eqAbove_step {a b m : Nat} (h : eqAbove a b (m + 1))
    (hbit : a.testBit m = b.testBit m) : eqAbove a b m := by
  intro j hj
  rcases Nat.eq_or_lt_of_le hj with he | hlt
  · rw [← he]
    exact hbit
  · exact h j hlt

theorem eqAbove_zero_eq {a b : Nat} (h : eqAbove a b 0) : a = b :=
  Nat.eq_of_testBit_eq fun j => h j (Nat.zero_le j)

theorem lt_of_bit_lt {a b i : Nat} (h : eqAbove a b (i + 1)) (ha : a.testBit i = false)
    (hb : b.testBit i = true) : a < b :=
  Nat.lt_of_testBit i ha hb (fun j hj => h j hj)

theorem top_bit_true {x j : Nat} (h1 : 2 ^ j ≤ x) (h2 : x < 2 ^ (j + 1)) :
    x.testBit j = true := by
  rw [Nat.testBit_to_div_mod]
  have hp : (2 : Nat) ^ (j + 1) = 2 ^ j * 2 := pow_succ 2 j
  have hpos : 0 < 2 ^ j := Nat.two_pow_pos j
  have ha : 1 ≤ x / 2 ^ j := (Nat.le_div_iff_mul_le hpos).mpr (by omega)
  have hb : x / 2 ^ j < 2 := by
    rw [Nat.div_lt_iff_lt_mul hpos]
    omega
  have he : x / 2 ^ j = 1 := by omega
  rw [he]
  decide

theorem exists_high_diff {a b : Nat} (h : a ≠ b) :
    ∃ j, (∀ j', j < j' → a.testBit j' = b.testBit j') ∧ a.testBit j ≠ b.testBit j := by
  have hx : a ^^^ b ≠ 0 := by
    intro he
    apply h
    have h2 := congrArg (fun t => t ^^^ b) he
    simpa [Nat.xor_assoc] using h2
  obtain ⟨hposl, hle⟩ := bitLenAux_pos_le (a ^^^ b) (a ^^^ b) le_rfl hx
  refine ⟨pyBitLength (a ^^^ b) - 1, ?_, ?_⟩
  · intro j' hj'
    have hlt : a ^^^ b < 2 ^ pyBitLength (a ^^^ b) := pyBitLength_lt _
    have hxf : (a ^^^ b).testBit j' = false := by
      apply Nat.testBit_lt_two_pow
      apply lt_of_lt_of_le hlt
      apply Nat.pow_le_pow_right (by omega)
      omega
    rw [Nat.testBit_xor] at hxf
    cases ha : a.testBit j' <;> cases hb : b.testBit j' <;> simp [ha, hb] at hxf ⊢
  · have hlt2 : a ^^^ b < 2 ^ (pyBitLength (a ^^^ b) - 1 + 1) := by
      have := pyBitLength_lt (a ^^^ b)
      have he : pyBitLength (a ^^^ b) - 1 + 1 = pyBitLength (a ^^^ b) := by
        have : 0 < pyBitLength (a ^^^ b) := hposl
        omega
      rw [he]
      exact this
    have hxt : (a ^^^ b).testBit (pyBitLength (a ^^^ b) - 1) = true :=
      top_bit_true hle hlt2
    rw [Nat.testBit_xor] at hxt
    cases ha : a.testBit (pyBitLength (a ^^^ b) - 1) <;>
      cases hb : b.testBit (pyBitLength (a ^^^ b) - 1) <;> simp [ha, hb] at hxt ⊢

theorem shiftRight_decomp (a m : Nat) : a = 2 ^ m * (a >>> m) + a % 2 ^ m := by
  rw [Nat.shiftRight_eq_div_pow]
  exact (Nat.div_add_mod a (2 ^ m)).symm

theorem mul_add_shiftRight {q r m : Nat} (hr : r < 2 ^ m) : (2 ^ m * q + r) >>> m = q := by
  rw [Nat.shiftRight_eq_div_pow, Nat.mul_add_div (Nat.two_pow_pos m),
    Nat.div_eq_of_lt hr, Nat.add_zero]

theorem le_of_prefix_low {a b m : Nat} (hpre : a >>> m = b >>> m)
    (hlow : a % 2 ^ m ≤ b % 2 ^ m) : a ≤ b := by
  have ha := shiftRight_decomp a m
  have hb := shiftRight_decomp b m
  rw [hpre] at ha
  omega

theorem lt_of_prefix_low {a b m : Nat} (hpre : a >>> m = b >>> m)
    (hlow : a % 2 ^ m < b % 2 ^ m) : a < b := by
  have ha := shiftRight_decomp a m
  have hb := shiftRight_decomp b m
  rw [hpre] at ha
  omega

theorem mod_pow_succ_ge {a k : Nat} (h : a.testBit k = true) : 2 ^ k ≤ a % 2 ^ (k + 1) := by
  apply Nat.testBit_implies_ge
  rw [Nat.testBit_mod_two_pow]
  simp [h]

theorem mod_pow_succ_lt {a k : Nat} (h : a.testBit k = false) : a % 2 ^ (k + 1) < 2 ^ k := by
  by_contra hc
  push_neg at hc
  have h1 : a % 2 ^ (k + 1) < 2 ^ (k + 1) := Nat.mod_lt _ (Nat.two_pow_pos _)
  have h2 := top_bit_true hc h1
  rw [Nat.testBit_mod_two_pow] at h2
  simp [h] at h2

theorem shiftRight_eq_succ_bit {a b m : Nat} (hpre : a >>> (m + 1) = b >>> (m + 1))
    (hbit : a.testBit m = b.testBit m) : a >>> m = b >>> m := by
  apply Nat.eq_of_testBit_eq
  intro k
  rw [Nat.testBit_shiftRight, Nat.testBit_shiftRight]
  match k with
  | 0 => simpa using hbit
  | k' + 1 =>
    have h1 : (a >>> (m + 1)).testBit k' = (b >>> (m + 1)).testBit k' := by rw [hpre]
    rw [Nat.testBit_shiftRight, Nat.testBit_shiftRight] at h1
    have he : m + (k' + 1) = m + 1 + k' := by omega
    rw [he]
    exact h1

/-! ### Per-plane effect of the LOAD writes -/

theorem coordW_testBit (z d dims total κ : Nat) :
    (coordW z d dims total).testBit κ =
      (decide (κ < total / dims) && z.testBit (d + κ * dims)) := by
  unfold coordW
  rw [testBit_sliceRead]

theorem coordW_pos_lt {dims total : Nat} (hdims : 0 < dims) (hdvd : dims ∣ total)
    {i : Nat} (hi : i < total) : i / dims < total / dims := by
  obtain ⟨t, rfl⟩ := hdvd
  rw [Nat.mul_div_cancel_left t hdims, Nat.div_lt_iff_lt_mul hdims]
  calc i < dims * t := hi
    _ = t * dims := Nat.mul_comm _ _

theorem pos_decomp (i dims : Nat) : i % dims + i / dims * dims = i := by
  conv_rhs => rw [← Nat.mod_add_div i dims]
  ring

theorem coordW_bit_at {dims total : Nat} (hdims : 0 < dims) (hdvd : dims ∣ total)
    {i : Nat} (hi : i < total) (z : Nat) :
    (coordW z (i % dims) dims total).testBit (i / dims) = z.testBit i := by
  rw [coordW_testBit, decide_eq_true (coordW_pos_lt hdims hdvd hi), Bool.true_and,
    pos_decomp i dims]

theorem coordW_bit_high (z d dims total : Nat) {κ : Nat} (hκ : total / dims ≤ κ) :
    (coordW z d dims total).testBit κ = false := by
  rw [coordW_testBit]
  simp [Nat.not_lt.mpr hκ]

theorem coordW_prefix {dims total : Nat} (hdims : 0 < dims) {a b i : Nat}
    (hab : eqAbove a b (i + 1)) :
    coordW a (i % dims) dims total >>> (i / dims + 1) =
      coordW b (i % dims) dims total >>> (i / dims + 1) := by
  apply eqAbove_shiftRight
  intro κ hκ
  rw [coordW_testBit, coordW_testBit]
  by_cases hlt : κ < total / dims
  · simp only [decide_eq_true hlt, Bool.true_and]
    apply hab
    have h1 : (i / dims + 1) * dims ≤ κ * dims := Nat.mul_le_mul_right dims hκ
    have h2 := pos_decomp i dims
    have h3 : (i / dims + 1) * dims = i / dims * dims + dims := by ring
    omega
  · simp [hlt]

theorem coordW_load1000_self {dims total : Nat} (hdims : 0 < dims) (hdvd : dims ∣ total)
    {i : Nat} (hi : i < total) (n : Nat) :
    coordW (load1000 n i dims) (i % dims) dims total =
      2 ^ (i / dims + 1) * (coordW n (i % dims) dims total >>> (i / dims + 1)) +
        2 ^ (i / dims) := by
  have hblt : (2 : Nat) ^ (i / dims) < 2 ^ (i / dims + 1) := by
    have hp : (2 : Nat) ^ (i / dims + 1) = 2 ^ (i / dims) * 2 := pow_succ 2 (i / dims)
    have := Nat.two_pow_pos (i / dims)
    omega
  apply Nat.eq_of_testBit_eq
  intro κ
  rw [coordW_testBit, Nat.testBit_mul_pow_two_add _ hblt κ]
  rcases Nat.lt_trichotomy κ (i / dims) with hκ | hκ | hκ
  · rw [if_pos (by omega)]
    have hpos : κ < total / dims := lt_trans hκ (coordW_pos_lt hdims hdvd hi)
    have h1 : κ * dims < i / dims * dims := (Nat.mul_lt_mul_right hdims).mpr hκ
    have h2 := pos_decomp i dims
    simp only [decide_eq_true hpos, Bool.true_and]
    rw [testBit_load1000 hdims]
    have hin : (i % dims + κ * dims) % dims = i % dims ∧ i % dims + κ * dims < i := by
      refine ⟨?_, by omega⟩
      rw [Nat.add_mul_mod_self_right, Nat.mod_mod_of_dvd _ (dvd_refl dims)]
    rw [if_neg (by omega), if_pos hin]
    exact (Nat.testBit_two_pow_of_ne (by omega)).symm
  · rw [if_pos (by omega)]
    have hpos : κ < total / dims := by
      rw [hκ]
      exact coordW_pos_lt hdims hdvd hi
    have hposeq : i % dims + κ * dims = i := by
      rw [hκ]
      exact pos_decomp i dims
    simp only [decide_eq_true hpos, Bool.true_and]
    rw [testBit_load1000 hdims, if_pos hposeq, hκ]
    exact Nat.testBit_two_pow_self.symm
  · rw [if_neg (by omega)]
    have hsr : (coordW n (i % dims) dims total >>> (i / dims + 1)).testBit (κ - (i / dims + 1))
        = (coordW n (i % dims) dims total).testBit κ := by
      rw [Nat.testBit_shiftRight]
      congr 1
      omega
    rw [hsr, coordW_testBit]
    by_cases hpos : κ < total / dims
    · simp only [decide_eq_true hpos, Bool.true_and]
      rw [testBit_load1000 hdims]
      have h1 : i / dims * dims < κ * dims := (Nat.mul_lt_mul_right hdims).mpr hκ
      have h2 := pos_decomp i dims
      rw [if_neg (by omega), if_neg (by rintro ⟨_, hh⟩; omega)]
    · simp [hpos]

theorem coordW_load0111_self {dims total : Nat} (hdims : 0 < dims) (hdvd : dims ∣ total)
    {i : Nat} (hi : i < total) (n : Nat) :
    coordW (load0111 n i dims) (i % dims) dims total =
      2 ^ (i / dims + 1) * (coordW n (i % dims) dims total >>> (i / dims + 1)) +
        (2 ^ (i / dims) - 1) := by
  have hblt : (2 : Nat) ^ (i / dims) - 1 < 2 ^ (i / dims + 1) := by
    have hp : (2 : Nat) ^ (i / dims + 1) = 2 ^ (i / dims) * 2 := pow_succ 2 (i / dims)
    have := Nat.two_pow_pos (i / dims)
    omega
  apply Nat.eq_of_testBit_eq
  intro κ
  rw [coordW_testBit, Nat.testBit_mul_pow_two_add _ hblt κ]
  rcases Nat.lt_trichotomy κ (i / dims) with hκ | hκ | hκ
  · rw [if_pos (by omega)]
    have hpos : κ < total / dims := lt_trans hκ (coordW_pos_lt hdims hdvd hi)
    have h1 : κ * dims < i / dims * dims := (Nat.mul_lt_mul_right hdims).mpr hκ
    have h2 := pos_decomp i dims
    simp only [decide_eq_true hpos, Bool.true_and]
    rw [testBit_load0111 hdims]
    have hin : (i % dims + κ * dims) % dims = i % dims ∧ i % dims + κ * dims < i := by
      refine ⟨?_, by omega⟩
      rw [Nat.add_mul_mod_self_right, Nat.mod_mod_of_dvd _ (dvd_refl dims)]
    rw [if_neg (by omega), if_pos hin, Nat.testBit_two_pow_sub_one]
    simp [hκ]
  · rw [if_pos (by omega)]
    have hpos : κ < total / dims := by
      rw [hκ]
      exact coordW_pos_lt hdims hdvd hi
    have hposeq : i % dims + κ * dims = i := by
      rw [hκ]
      exact pos_decomp i dims
    simp only [decide_eq_true hpos, Bool.true_and]
    rw [testBit_load0111 hdims, if_pos hposeq, Nat.testBit_two_pow_sub_one, hκ]
    simp
  · rw [if_neg (by omega)]
    have hsr : (coordW n (i % dims) dims total >>> (i / dims + 1)).testBit (κ - (i / dims + 1))
        = (coordW n (i % dims) dims total).testBit κ := by
      rw [Nat.testBit_shiftRight]
      congr 1
      omega
    rw [hsr, coordW_testBit]
    by_cases hpos : κ < total / dims
    · simp only [decide_eq_true hpos, Bool.true_and]
      rw [testBit_load0111 hdims]
      have h1 : i / dims * dims < κ * dims := (Nat.mul_lt_mul_right hdims).mpr hκ
      have h2 := pos_decomp i dims
      rw [if_neg (by omega), if_neg (by rintro ⟨_, hh⟩; omega)]
    · simp [hpos]

theorem coordW_load1000_other {dims total : Nat} (hdims : 0 < dims)
    {i d' : Nat} (hne : d' ≠ i % dims) (hd' : d' < dims) (n : Nat) :
    coordW (load1000 n i dims) d' dims total = coordW n d' dims total := by
  apply Nat.eq_of_testBit_eq
  intro κ
  rw [coordW_testBit, coordW_testBit]
  by_cases hpos : κ < total / dims
  · simp only [decide_eq_true hpos, Bool.true_and]
    rw [testBit_load1000 hdims]
    have hmod : (d' + κ * dims) % dims = d' := by
      rw [Nat.add_mul_mod_self_right, Nat.mod_eq_of_lt hd']
    have hne2 : d' + κ * dims ≠ i := by
      intro he
      apply hne
      rw [← he, hmod]
    rw [if_neg hne2, if_neg (by rw [hmod]; rintro ⟨hh, _⟩; exact hne hh)]
  · simp [hpos]

theorem coordW_load0111_other {dims total : Nat} (hdims : 0 < dims)
    {i d' : Nat} (hne : d' ≠ i % dims) (hd' : d' < dims) (n : Nat) :
    coordW (load0111 n i dims) d' dims total = coordW n d' dims total := by
  apply Nat.eq_of_testBit_eq
  intro κ
  rw [coordW_testBit, coordW_testBit]
  by_cases hpos : κ < total / dims
  · simp only [decide_eq_true hpos, Bool.true_and]
    rw [testBit_load0111 hdims]
    have hmod : (d' + κ * dims) % dims = d' := by
      rw [Nat.add_mul_mod_self_right, Nat.mod_eq_of_lt hd']
    have hne2 : d' + κ * dims ≠ i := by
      intro he
      apply hne
      rw [← he, hmod]
    rw [if_neg hne2, if_neg (by rw [hmod]; rintro ⟨hh, _⟩; exact hne hh)]
  · simp [hpos]

theorem mono_coordW {dims total : Nat} (hdims : 0 < dims) (hdvd : dims ∣ total)
    {a b : Nat} (ha : a < 2 ^ total) (hb : b < 2 ^ total)
    (h : ∀ d, d < dims → coordW a d dims total ≤ coordW b d dims total) : a ≤ b := by
  by_contra hc
  push_neg at hc
  obtain ⟨j, hagree, hdiff⟩ := exists_high_diff (Nat.ne_of_lt hc).symm
  have hbits : a.testBit j = true ∧ b.testBit j = false := by
    cases haj : a.testBit j <;> cases hbj : b.testBit j
    · exact absurd (haj.trans hbj.symm) hdiff
    · exact absurd (Nat.lt_of_testBit j haj hbj (fun j' hj' => hagree j' hj')) (by omega)
    · exact ⟨rfl, rfl⟩
    · exact absurd (haj.trans hbj.symm) hdiff
  have hjt : j < total := by
    by_contra hjc
    push_neg at hjc
    have := Nat.testBit_lt_two_pow
      (lt_of_lt_of_le ha (Nat.pow_le_pow_right (by omega) hjc))
    rw [this] at hbits
    exact absurd hbits.1 (by simp)
  have hd : j % dims < dims := Nat.mod_lt _ hdims
  have hcoord : coordW b (j % dims) dims total < coordW a (j % dims) dims total := by
    apply Nat.lt_of_testBit (j / dims)
    · rw [coordW_bit_at hdims hdvd hjt]
      exact hbits.2
    · rw [coordW_bit_at hdims hdvd hjt]
      exact hbits.1
    · intro κ hκ
      by_cases hpos : κ < total / dims
      · rw [coordW_testBit, coordW_testBit, decide_eq_true hpos, Bool.true_and,
          Bool.true_and]
        apply (hagree _ _).symm
        have h1 : (j / dims + 1) * dims ≤ κ * dims := Nat.mul_le_mul_right dims hκ
        have h2 := pos_decomp j dims
        have h3 : (j / dims + 1) * dims = j / dims * dims + dims := by ring
        omega
      · rw [coordW_bit_high _ _ _ _ (by omega), coordW_bit_high _ _ _ _ (by omega)]
  exact absurd (h (j % dims) hd) (by omega)

theorem mul_add_mod_pow {q r m : Nat} (hr : r < 2 ^ m) : (2 ^ m * q + r) % 2 ^ m = r := by
  rw [Nat.mul_add_mod]
  exact Nat.mod_eq_of_lt hr

theorem squeeze_shiftRight {a z b m : Nat} (h1 : a ≤ z) (h2 : z ≤ b)
    (h : a >>> m = b >>> m) : z >>> m = a >>> m := by
  simp only [Nat.shiftRight_eq_div_pow] at h ⊢
  have ha : a / 2 ^ m ≤ z / 2 ^ m := Nat.div_le_div_right h1
  have hb : z / 2 ^ m ≤ b / 2 ^ m := Nat.div_le_div_right h2
  omega

/-- When the working MIN and MAX agree at bit i, every candidate (box member
agreeing with CODE above i) has the same bit i as MIN. -/
theorem cand_bit {dims total code rmin rmax MIN MAX : Nat} (hdims : 0 < dims)
    (hdvd : dims ∣ total) {i : Nat} (hi : i < total)
    (hSB : scanBounds dims total code rmin rmax MIN MAX (i + 1))
    (hmM : MIN.testBit i = MAX.testBit i)
    {z : Nat} (hz : z < 2 ^ total) (hzbox : inBoxW z rmin rmax dims total)
    (hzeq : eqAbove z code (i + 1)) :
    z.testBit i = MIN.testBit i := by
  obtain ⟨hMIN, hMAX, hAmin, hAmax, hEV, hC2⟩ := hSB
  have hzMM := hC2 z hz hzbox hzeq
  have hd : i % dims < dims := Nat.mod_lt _ hdims
  obtain ⟨h1, h2⟩ := hzMM (i % dims) hd
  have hminmax : eqAbove MIN MAX (i + 1) := eqAbove_trans hAmin (eqAbove_symm hAmax)
  have hpre : coordW MIN (i % dims) dims total >>> (i / dims + 1)
      = coordW MAX (i % dims) dims total >>> (i / dims + 1) := coordW_prefix hdims hminmax
  have hbitk : (coordW MIN (i % dims) dims total).testBit (i / dims)
      = (coordW MAX (i % dims) dims total).testBit (i / dims) := by
    rw [coordW_bit_at hdims hdvd hi, coordW_bit_at hdims hdvd hi]
    exact hmM
  have hpre2 := shiftRight_eq_succ_bit hpre hbitk
  have hsq := squeeze_shiftRight h1 h2 hpre2
  have hz1 : z.testBit i = (coordW z (i % dims) dims total).testBit (i / dims) :=
    (coordW_bit_at hdims hdvd hi z).symm
  have hm1 : MIN.testBit i = (coordW MIN (i % dims) dims total).testBit (i / dims) :=
    (coordW_bit_at hdims hdvd hi MIN).symm
  have hb0 : ∀ x : Nat, x.testBit (i / dims) = (x >>> (i / dims)).testBit 0 := by
    intro x
    rw [Nat.testBit_shiftRight, Nat.add_zero]
  rw [hz1, hm1, hb0 (coordW z (i % dims) dims total), hb0 (coordW MIN (i % dims) dims total),
    hsq]

/-- A value that agrees with CODE above i is below any value that branched off
above CODE at a position jb > i. -/
theorem branch_lt {x y code jb i : Nat} (hx : eqAbove x code (jb + 1))
    (hxb : x.testBit jb = true) (hcb : code.testBit jb = false)
    (hy : eqAbove y code (i + 1)) (hij : i < jb) : y < x := by
  apply Nat.lt_of_testBit jb
  · rw [hy jb (by omega)]
    exact hcb
  · exact hxb
  · intro j hj
    rw [hy j (by omega)]
    exact (hx j (by omega)).symm

/-- Mirror of branch_lt: a value that branched off below CODE at jb > i is
below any value agreeing with CODE above i. -/
theorem branch_gt {x y code jb i : Nat} (hx : eqAbove x code (jb + 1))
    (hxb : x.testBit jb = false) (hcb : code.testBit jb = true)
    (hy : eqAbove y code (i + 1)) (hij : i < jb) : x < y := by
  apply Nat.lt_of_testBit jb
  · exact hxb
  · rw [hy jb (by omega)]
    exact hcb
  · intro j hj
    rw [hy j (by omega)]
    exact hx j (by omega)

/-- The raise cases MIN[i] = 1, MAX[i] = 0 are impossible while the working
box stays coordinatewise valid. -/
theorem raise_impossible {dims total code rmin rmax MIN MAX : Nat} (hdims : 0 < dims)
    (hdvd : dims ∣ total) {i : Nat} (hi : i < total)
    (hSB : scanBounds dims total code rmin rmax MIN MAX (i + 1))
    (hm : MIN.testBit i = true) (hM : MAX.testBit i = false) : False := by
  obtain ⟨hMIN, hMAX, hAmin, hAmax, hEV, hC2⟩ := hSB
  have hd : i % dims < dims := Nat.mod_lt _ hdims
  have hminmax : eqAbove MIN MAX (i + 1) := eqAbove_trans hAmin (eqAbove_symm hAmax)
  have hpre : coordW MIN (i % dims) dims total >>> (i / dims + 1)
      = coordW MAX (i % dims) dims total >>> (i / dims + 1) := coordW_prefix hdims hminmax
  have hlt : coordW MAX (i % dims) dims total < coordW MIN (i % dims) dims total := by
    apply lt_of_prefix_low hpre.symm
    have hM2 : coordW MAX (i % dims) dims total % 2 ^ (i / dims + 1) < 2 ^ (i / dims) :=
      mod_pow_succ_lt (by rw [coordW_bit_at hdims hdvd hi, hM])
    have hm2 : 2 ^ (i / dims) ≤ coordW MIN (i % dims) dims total % 2 ^ (i / dims + 1) :=
      mod_pow_succ_ge (by rw [coordW_bit_at hdims hdvd hi, hm])
    omega
  obtain ⟨_, _, hV⟩ := hEV (i % dims) hd
  omega

/-- State preservation when the scanned triple leaves MIN and MAX unchanged
(cases 000 and 111 and, for the bounds, the accumulator-only cases). -/
theorem step_keep {dims total code rmin rmax MIN MAX : Nat}
    (hdims : 0 < dims) (hdvd : dims ∣ total) {i : Nat} (hi : i < total)
    (hSB : scanBounds dims total code rmin rmax MIN MAX (i + 1))
    (hm : MIN.testBit i = code.testBit i) (hM : MAX.testBit i = code.testBit i) :
    scanBounds dims total code rmin rmax MIN MAX i := by
  obtain ⟨hMIN, hMAX, hAmin, hAmax, hEV, hC2⟩ := hSB
  exact ⟨hMIN, hMAX, eqAbove_step hAmin hm, eqAbove_step hAmax hM, hEV,
    fun z hz hzbox hzeq => hC2 z hz hzbox (eqAbove_mono hzeq (by omega))⟩

/-- State preservation for the case CODE[i] = 1, MIN[i] = 0, MAX[i] = 1:
MIN is raised to the 1000... pattern. -/
theorem step_raise_min {dims total code rmin rmax MIN MAX : Nat}
    (hdims : 0 < dims) (hdvd : dims ∣ total) {i : Nat} (hi : i < total)
    (hSB : scanBounds dims total code rmin rmax MIN MAX (i + 1))
    (hc : code.testBit i = true) (hm : MIN.testBit i = false) (hM : MAX.testBit i = true) :
    scanBounds dims total code rmin rmax (load1000 MIN i dims) MAX i := by
  obtain ⟨hMIN, hMAX, hAmin, hAmax, hEV, hC2⟩ := hSB
  have hd : i % dims < dims := Nat.mod_lt _ hdims
  have hqmin : coordW MIN (i % dims) dims total >>> (i / dims + 1)
      = coordW code (i % dims) dims total >>> (i / dims + 1) := coordW_prefix hdims hAmin
  have hqmax : coordW MAX (i % dims) dims total >>> (i / dims + 1)
      = coordW code (i % dims) dims total >>> (i / dims + 1) := coordW_prefix hdims hAmax
  have hself := coordW_load1000_self hdims hdvd hi MIN
  have hdecMIN := shiftRight_decomp (coordW MIN (i % dims) dims total) (i / dims + 1)
  have hdecMAX := shiftRight_decomp (coordW MAX (i % dims) dims total) (i / dims + 1)
  rw [hqmax, ← hqmin] at hdecMAX
  have hmlt : coordW MIN (i % dims) dims total % 2 ^ (i / dims + 1) < 2 ^ (i / dims) :=
    mod_pow_succ_lt (by rw [coordW_bit_at hdims hdvd hi, hm])
  have hMge : 2 ^ (i / dims) ≤ coordW MAX (i % dims) dims total % 2 ^ (i / dims + 1) :=
    mod_pow_succ_ge (by rw [coordW_bit_at hdims hdvd hi, hM])
  refine ⟨load1000_lt hdims hMIN hi, hMAX, ?_, eqAbove_step hAmax (by rw [hM, hc]), ?_, ?_⟩
  · intro j hj
    rw [testBit_load1000 hdims]
    by_cases hji : j = i
    · rw [if_pos hji, hji, hc]
    · rw [if_neg hji, if_neg (by rintro ⟨_, hh⟩; omega)]
      exact hAmin j (by omega)
  · intro d' hd'
    by_cases hdd : d' = i % dims
    · subst hdd
      rw [hself]
      obtain ⟨hE1, hE2, hV⟩ := hEV (i % dims) hd'
      refine ⟨by omega, hE2, by omega⟩
    · rw [coordW_load1000_other hdims hdd hd']
      exact hEV d' hd'
  · intro z hz hzbox hzeq
    have hzold := hC2 z hz hzbox (eqAbove_mono hzeq (by omega))
    intro d' hd'
    by_cases hdd : d' = i % dims
    · subst hdd
      rw [hself]
      obtain ⟨hz1, hz2⟩ := hzold (i % dims) hd'
      have hqz : coordW z (i % dims) dims total >>> (i / dims + 1)
          = coordW code (i % dims) dims total >>> (i / dims + 1) :=
        coordW_prefix hdims (eqAbove_mono hzeq (by omega))
      have hzbit : z.testBit i = true := by rw [hzeq i le_rfl, hc]
      have hzge : 2 ^ (i / dims) ≤ coordW z (i % dims) dims total % 2 ^ (i / dims + 1) :=
        mod_pow_succ_ge (by rw [coordW_bit_at hdims hdvd hi, hzbit])
      have hdecz := shiftRight_decomp (coordW z (i % dims) dims total) (i / dims + 1)
      rw [hqz, ← hqmin] at hdecz
      exact ⟨by omega, hz2⟩
    · rw [coordW_load1000_other hdims hdd hd']
      exact hzold d' hd'

/-- State preservation for the case CODE[i] = 0, MIN[i] = 0, MAX[i] = 1:
MAX is lowered to the 0111... pattern. -/
theorem step_lower_max {dims total code rmin rmax MIN MAX : Nat}
    (hdims : 0 < dims) (hdvd : dims ∣ total) {i : Nat} (hi : i < total)
    (hSB : scanBounds dims total code rmin rmax MIN MAX (i + 1))
    (hc : code.testBit i = false) (hm : MIN.testBit i = false) (hM : MAX.testBit i = true) :
    scanBounds dims total code rmin rmax MIN (load0111 MAX i dims) i := by
  obtain ⟨hMIN, hMAX, hAmin, hAmax, hEV, hC2⟩ := hSB
  have hd : i % dims < dims := Nat.mod_lt _ hdims
  have hqmin : coordW MIN (i % dims) dims total >>> (i / dims + 1)
      = coordW code (i % dims) dims total >>> (i / dims + 1) := coordW_prefix hdims hAmin
  have hqmax : coordW MAX (i % dims) dims total >>> (i / dims + 1)
      = coordW code (i % dims) dims total >>> (i / dims + 1) := coordW_prefix hdims hAmax
  have hself := coordW_load0111_self hdims hdvd hi MAX
  have hdecMIN := shiftRight_decomp (coordW MIN (i % dims) dims total) (i / dims + 1)
  have hdecMAX := shiftRight_decomp (coordW MAX (i % dims) dims total) (i / dims + 1)
  rw [hqmin, ← hqmax] at hdecMIN
  have hmlt : coordW MIN (i % dims) dims total % 2 ^ (i / dims + 1) < 2 ^ (i / dims) :=
    mod_pow_succ_lt (by rw [coordW_bit_at hdims hdvd hi, hm])
  have hMge : 2 ^ (i / dims) ≤ coordW MAX (i % dims) dims total % 2 ^ (i / dims + 1) :=
    mod_pow_succ_ge (by rw [coordW_bit_at hdims hdvd hi, hM])
  have hpow : (0 : Nat) < 2 ^ (i / dims) := Nat.two_pow_pos _
  refine ⟨hMIN, load0111_lt hdims hMAX hi, eqAbove_step hAmin (by rw [hm, hc]), ?_, ?_, ?_⟩
  · intro j hj
    rw [testBit_load0111 hdims]
    by_cases hji : j = i
    · rw [if_pos hji, hji, hc]
    · rw [if_neg hji, if_neg (by rintro ⟨_, hh⟩; omega)]
      exact hAmax j (by omega)
  · intro d' hd'
    by_cases hdd : d' = i % dims
    · subst hdd
      rw [hself]
      obtain ⟨hE1, hE2, hV⟩ := hEV (i % dims) hd'
      refine ⟨hE1, by omega, by omega⟩
    · rw [coordW_load0111_other hdims hdd hd']
      exact hEV d' hd'
  · intro z hz hzbox hzeq
    have hzold := hC2 z hz hzbox (eqAbove_mono hzeq (by omega))
    intro d' hd'
    by_cases hdd : d' = i % dims
    · subst hdd
      rw [hself]
      obtain ⟨hz1, hz2⟩ := hzold (i % dims) hd'
      have hqz : coordW z (i % dims) dims total >>> (i / dims + 1)
          = coordW code (i % dims) dims total >>> (i / dims + 1) :=
        coordW_prefix hdims (eqAbove_mono hzeq (by omega))
      have hzbit : z.testBit i = false := by rw [hzeq i le_rfl, hc]
      have hzlt : coordW z (i % dims) dims total % 2 ^ (i / dims + 1) < 2 ^ (i / dims) :=
        mod_pow_succ_lt (by rw [coordW_bit_at hdims hdvd hi, hzbit])
      have hdecz := shiftRight_decomp (coordW z (i % dims) dims total) (i / dims + 1)
      rw [hqz, ← hqmax] at hdecz
      exact ⟨hz1, by omega⟩
    · rw [coordW_load0111_other hdims hdd hd']
      exact hzold d' hd'

/-- bigminInv preservation when CODE[i] = 1 and the working box is not split:
a candidate that disagreed at bit i would lie below CODE. -/
theorem step_bigmin_c1 {dims total code rmin rmax BIGMIN : Nat} {i : Nat}
    (hBI : bigminInv dims total code rmin rmax BIGMIN (i + 1))
    (hc : code.testBit i = true) :
    bigminInv dims total code rmin rmax BIGMIN i := by
  have hzbit : ∀ z, code < z → eqAbove z code (i + 1) → eqAbove z code i := by
    intro z hcz hzeq
    refine eqAbove_step hzeq ?_
    cases hzb : z.testBit i
    · exact absurd (lt_of_bit_lt hzeq hzb hc) (by omega)
    · rw [hc]
  rcases hBI with ⟨h0, hall⟩ | ⟨hbox, hgt, hlt, ⟨jb, hjb1, hjb2, hjbeq, hjbx, hjbc⟩, hmin⟩
  · exact Or.inl ⟨h0, fun z hz hzbox hcz => hzbit z hcz (hall z hz hzbox hcz)⟩
  · refine Or.inr ⟨hbox, hgt, hlt, ⟨jb, by omega, hjb2, hjbeq, hjbx, hjbc⟩, ?_⟩
    intro z hz hzbox hcz
    rcases hmin z hz hzbox hcz with hzeq | hle
    · exact Or.inl (hzbit z hcz hzeq)
    · exact Or.inr hle

/-- bigminInv preservation when MIN[i] = MAX[i] = CODE[i]: candidates keep
agreeing at bit i. -/
theorem step_bigmin_keep {dims total code rmin rmax MIN MAX BIGMIN : Nat}
    (hdims : 0 < dims) (hdvd : dims ∣ total) {i : Nat} (hi : i < total)
    (hSB : scanBounds dims total code rmin rmax MIN MAX (i + 1))
    (hBI : bigminInv dims total code rmin rmax BIGMIN (i + 1))
    (hm : MIN.testBit i = code.testBit i) (hM : MAX.testBit i = code.testBit i) :
    bigminInv dims total code rmin rmax BIGMIN i := by
  have hzbit : ∀ z, z < 2 ^ total → inBoxW z rmin rmax dims total →
      eqAbove z code (i + 1) → eqAbove z code i := by
    intro z hz hzbox hzeq
    refine eqAbove_step hzeq ?_
    rw [cand_bit hdims hdvd hi hSB (hm.trans hM.symm) hz hzbox hzeq, hm]
  rcases hBI with ⟨h0, hall⟩ | ⟨hbox, hgt, hlt, ⟨jb, hjb1, hjb2, hjbeq, hjbx, hjbc⟩, hmin⟩
  · exact Or.inl ⟨h0, fun z hz hzbox hcz => hzbit z hz hzbox (hall z hz hzbox hcz)⟩
  · refine Or.inr ⟨hbox, hgt, hlt, ⟨jb, by omega, hjb2, hjbeq, hjbx, hjbc⟩, ?_⟩
    intro z hz hzbox hcz
    rcases hmin z hz hzbox hcz with hzeq | hle
    · exact Or.inl (hzbit z hz hzbox hzeq)
    · exact Or.inr hle

/-- The split case CODE[i] = 0, MIN[i] = 0, MAX[i] = 1: the freshly captured
BIGMIN = LOAD(1000..., MIN) becomes the least box member above CODE among
those branching at a position ≥ i. -/
theorem step_bigmin_split {dims total code rmin rmax MIN MAX BIGMIN : Nat}
    (hdims : 0 < dims) (hdvd : dims ∣ total) {i : Nat} (hi : i < total)
    (hSB : scanBounds dims total code rmin rmax MIN MAX (i + 1))
    (hBI : bigminInv dims total code rmin rmax BIGMIN (i + 1))
    (hc : code.testBit i = false) (hm : MIN.testBit i = false) (hM : MAX.testBit i = true) :
    bigminInv dims total code rmin rmax (load1000 MIN i dims) i := by
  obtain ⟨hMIN, hMAX, hAmin, hAmax, hEV, hC2⟩ := hSB
  have hd : i % dims < dims := Nat.mod_lt _ hdims
  have hself := coordW_load1000_self hdims hdvd hi MIN
  have hqmin : coordW MIN (i % dims) dims total >>> (i / dims + 1)
      = coordW code (i % dims) dims total >>> (i / dims + 1) := coordW_prefix hdims hAmin
  have hqmax : coordW MAX (i % dims) dims total >>> (i / dims + 1)
      = coordW code (i % dims) dims total >>> (i / dims + 1) := coordW_prefix hdims hAmax
  have hBeq : eqAbove (load1000 MIN i dims) code (i + 1) := by
    intro j hj
    rw [testBit_load1000 hdims, if_neg (by omega), if_neg (by rintro ⟨_, hh⟩; omega)]
    exact hAmin j hj
  have hBbit : (load1000 MIN i dims).testBit i = true := by
    rw [testBit_load1000 hdims, if_pos rfl]
  have hBgt : code < load1000 MIN i dims := by
    apply Nat.lt_of_testBit i hc hBbit
    intro j hj
    exact (hBeq j hj).symm
  have hBlt : load1000 MIN i dims < 2 ^ total := load1000_lt hdims hMIN hi
  have hmlt : coordW MIN (i % dims) dims total % 2 ^ (i / dims + 1) < 2 ^ (i / dims) :=
    mod_pow_succ_lt (by rw [coordW_bit_at hdims hdvd hi, hm])
  have hMge : 2 ^ (i / dims) ≤ coordW MAX (i % dims) dims total % 2 ^ (i / dims + 1) :=
    mod_pow_succ_ge (by rw [coordW_bit_at hdims hdvd hi, hM])
  have hdecMIN := shiftRight_decomp (coordW MIN (i % dims) dims total) (i / dims + 1)
  have hdecMAX := shiftRight_decomp (coordW MAX (i % dims) dims total) (i / dims + 1)
  rw [hqmax, ← hqmin] at hdecMAX
  have hBbox : inBoxW (load1000 MIN i dims) rmin rmax dims total := by
    intro d' hd'
    obtain ⟨hE1, hE2, hV⟩ := hEV d' hd'
    by_cases hdd : d' = i % dims
    · subst hdd
      rw [hself]
      exact ⟨by omega, by omega⟩
    · rw [coordW_load1000_other hdims hdd hd']
      exact ⟨hE1, le_trans hV hE2⟩
  have hge : ∀ z, z < 2 ^ total → inBoxW z rmin rmax dims total →
      eqAbove z code (i + 1) → z.testBit i = true → load1000 MIN i dims ≤ z := by
    intro z hz hzbox hzeq hzbit
    have hzMM := hC2 z hz hzbox hzeq
    apply mono_coordW hdims hdvd hBlt hz
    intro d' hd'
    obtain ⟨hzm, hzM⟩ := hzMM d' hd'
    by_cases hdd : d' = i % dims
    · subst hdd
      rw [hself]
      have hqz : coordW z (i % dims) dims total >>> (i / dims + 1)
          = coordW code (i % dims) dims total >>> (i / dims + 1) :=
        coordW_prefix hdims hzeq
      have hzge : 2 ^ (i / dims) ≤ coordW z (i % dims) dims total % 2 ^ (i / dims + 1) :=
        mod_pow_succ_ge (by rw [coordW_bit_at hdims hdvd hi, hzbit])
      have hdecz := shiftRight_decomp (coordW z (i % dims) dims total) (i / dims + 1)
      rw [hqz, ← hqmin] at hdecz
      omega
    · rw [coordW_load1000_other hdims hdd hd']
      exact hzm
  refine Or.inr ⟨hBbox, hBgt, hBlt, ⟨i, le_rfl, hi, hBeq, hBbit, hc⟩, ?_⟩
  intro z hz hzbox hcz
  rcases hBI with ⟨h0, hall⟩ | ⟨hbox2, hgt2, hlt2, ⟨jb, hjb1, hjb2, hjbeq, hjbx, hjbc⟩, hmin2⟩
  · have hzeq := hall z hz hzbox hcz
    cases hzb : z.testBit i
    · exact Or.inl (eqAbove_step hzeq (by rw [hzb, hc]))
    · exact Or.inr (hge z hz hzbox hzeq hzb)
  · rcases hmin2 z hz hzbox hcz with hzeq | hle
    · cases hzb : z.testBit i
      · exact Or.inl (eqAbove_step hzeq (by rw [hzb, hc]))
      · exact Or.inr (hge z hz hzbox hzeq hzb)
    · have hBB : load1000 MIN i dims < BIGMIN := branch_lt hjbeq hjbx hjbc hBeq (by omega)
      exact Or.inr (by omega)

/-- Terminal case CODE[i] = 0, MIN[i] = MAX[i] = 1: the working MIN is the
least box member above CODE. -/
theorem return_min_goal {dims total code rmin rmax MIN MAX BIGMIN : Nat}
    (hdims : 0 < dims) (hdvd : dims ∣ total) {i : Nat} (hi : i < total)
    (hSB : scanBounds dims total code rmin rmax MIN MAX (i + 1))
    (hBI : bigminInv dims total code rmin rmax BIGMIN (i + 1))
    (hc : code.testBit i = false) (hm : MIN.testBit i = true) :
    nextGoal dims total code rmin rmax MIN := by
  have hSB' := hSB
  obtain ⟨hMIN, hMAX, hAmin, hAmax, hEV, hC2⟩ := hSB
  right
  refine ⟨?_, lt_of_bit_lt (eqAbove_symm hAmin) hc hm, hMIN, ?_⟩
  · intro d' hd'
    obtain ⟨hE1, hE2, hV⟩ := hEV d' hd'
    exact ⟨hE1, le_trans hV hE2⟩
  · intro z hz hzbox hcz
    have hmono : eqAbove z code (i + 1) → MIN ≤ z := by
      intro hzeq
      have hzMM := hC2 z hz hzbox hzeq
      apply mono_coordW hdims hdvd hMIN hz
      intro d' hd'
      exact (hzMM d' hd').1
    rcases hBI with ⟨h0, hall⟩ | ⟨hbox2, hgt2, hlt2, ⟨jb, hjb1, hjb2, hjbeq, hjbx, hjbc⟩, hmin2⟩
    · exact hmono (hall z hz hzbox hcz)
    · rcases hmin2 z hz hzbox hcz with hzeq | hle
      · exact hmono hzeq
      · have : MIN < BIGMIN := branch_lt hjbeq hjbx hjbc hAmin (by omega)
        omega

/-- Terminal case CODE[i] = 1, MIN[i] = MAX[i] = 0: every remaining candidate
is below CODE, so BIGMIN already holds the answer. -/
theorem return_bigmin_goal {dims total code rmin rmax MIN MAX BIGMIN : Nat}
    (hdims : 0 < dims) (hdvd : dims ∣ total) {i : Nat} (hi : i < total)
    (hSB : scanBounds dims total code rmin rmax MIN MAX (i + 1))
    (hBI : bigminInv dims total code rmin rmax BIGMIN (i + 1))
    (hc : code.testBit i = true) (hm : MIN.testBit i = false) (hM : MAX.testBit i = false) :
    nextGoal dims total code rmin rmax BIGMIN := by
  have hzlt : ∀ z, z < 2 ^ total → inBoxW z rmin rmax dims total →
      eqAbove z code (i + 1) → z < code := by
    intro z hz hzbox hzeq
    have hzb := cand_bit hdims hdvd hi hSB (hm.trans hM.symm) hz hzbox hzeq
    rw [hm] at hzb
    exact lt_of_bit_lt hzeq hzb hc
  rcases hBI with ⟨h0, hall⟩ | ⟨hbox2, hgt2, hlt2, _, hmin2⟩
  · left
    refine ⟨h0, ?_⟩
    intro z hz hzbox
    by_contra hcz
    push_neg at hcz
    exact absurd (hzlt z hz hzbox (hall z hz hzbox hcz)) (by omega)
  · right
    refine ⟨hbox2, hgt2, hlt2, ?_⟩
    intro z hz hzbox hcz
    rcases hmin2 z hz hzbox hcz with hzeq | hle
    · exact absurd (hzlt z hz hzbox hzeq) (by omega)
    · exact hle

/-- Main correctness of the pyMorton BIGMIN scan: from a valid invariant
state it terminates without error and returns either 0 (no box member above
CODE) or the least box member above CODE. -/
theorem nextScanP_main {dims total code rmin rmax : Nat}
    (hdims : 0 < dims) (hdvd : dims ∣ total) (hcode : code < 2 ^ total) :
    ∀ f MIN MAX BIGMIN, f ≤ total →
      scanBounds dims total code rmin rmax MIN MAX f →
      bigminInv dims total code rmin rmax BIGMIN f →
      ∃ r, nextScanP dims code MIN MAX BIGMIN f = Except.ok r ∧
        nextGoal dims total code rmin rmax r := by
  intro f
  induction f with
  | zero =>
    intro MIN MAX BIGMIN _ _ hBI
    refine ⟨BIGMIN, rfl, ?_⟩
    rcases hBI with ⟨h0, hall⟩ | ⟨hbox, hgt, hlt, _, hmin⟩
    · left
      refine ⟨h0, ?_⟩
      intro z hz hzbox
      by_contra hcz
      push_neg at hcz
      have := eqAbove_zero_eq (hall z hz hzbox hcz)
      omega
    · right
      refine ⟨hbox, hgt, hlt, ?_⟩
      intro z hz hzbox hcz
      rcases hmin z hz hzbox hcz with he | hle
      · have := eqAbove_zero_eq he
        omega
      · exact hle
  | succ i ih =>
    intro MIN MAX BIGMIN hf hSB hBI
    have hi : i < total := by omega
    rcases hc : code.testBit i with _ | _ <;> rcases hm : MIN.testBit i with _ | _ <;>
      rcases hM : MAX.testBit i with _ | _ <;>
      simp only [nextScanP, hc, hm, hM]
    · exact ih MIN MAX BIGMIN (by omega)
        (step_keep hdims hdvd hi hSB (by rw [hm, hc]) (by rw [hM, hc]))
        (step_bigmin_keep hdims hdvd hi hSB hBI (by rw [hm, hc]) (by rw [hM, hc]))
    · exact ih MIN (load0111 MAX i dims) (load1000 MIN i dims) (by omega)
        (step_lower_max hdims hdvd hi hSB hc hm hM)
        (step_bigmin_split hdims hdvd hi hSB hBI hc hm hM)
    · exact (raise_impossible hdims hdvd hi hSB hm hM).elim
    · exact ⟨MIN, rfl, return_min_goal hdims hdvd hi hSB hBI hc hm⟩
    · exact ⟨BIGMIN, rfl, return_bigmin_goal hdims hdvd hi hSB hBI hc hm hM⟩
    · exact ih (load1000 MIN i dims) MAX BIGMIN (by omega)
        (step_raise_min hdims hdvd hi hSB hc hm hM)
        (step_bigmin_c1 hBI hc)
    · exact (raise_impossible hdims hdvd hi hSB hm hM).elim
    · exact ih MIN MAX BIGMIN (by omega)
        (step_keep hdims hdvd hi hSB (by rw [hm, hc]) (by rw [hM, hc]))
        (step_bigmin_keep hdims hdvd hi hSB hBI (by rw [hm, hc]) (by rw [hM, hc]))

/-- litmaxInv preservation when CODE[i] = 0: a candidate that disagreed at
bit i would lie above CODE. -/
theorem step_litmax_c0 {dims total code rmin rmax LITMAX : Nat} {i : Nat}
    (hLI : litmaxInv dims total code rmin rmax LITMAX (i + 1))
    (hc : code.testBit i = false) :
    litmaxInv dims total code rmin rmax LITMAX i := by
  have hzbit : ∀ z, z < code → eqAbove z code (i + 1) → eqAbove z code i := by
    intro z hcz hzeq
    refine eqAbove_step hzeq ?_
    cases hzb : z.testBit i
    · rw [hc]
    · exact absurd (lt_of_bit_lt (eqAbove_symm hzeq) hc hzb) (by omega)
  rcases hLI with ⟨h0, hall⟩ | ⟨hbox, hgt, hlt, ⟨jb, hjb1, hjb2, hjbeq, hjbx, hjbc⟩, hmin⟩
  · exact Or.inl ⟨h0, fun z hz hzbox hcz => hzbit z hcz (hall z hz hzbox hcz)⟩
  · refine Or.inr ⟨hbox, hgt, hlt, ⟨jb, by omega, hjb2, hjbeq, hjbx, hjbc⟩, ?_⟩
    intro z hz hzbox hcz
    rcases hmin z hz hzbox hcz with hzeq | hle
    · exact Or.inl (hzbit z hcz hzeq)
    · exact Or.inr hle

/-- litmaxInv preservation when MIN[i] = MAX[i] = CODE[i]. -/
theorem step_litmax_keep {dims total code rmin rmax MIN MAX LITMAX : Nat}
    (hdims : 0 < dims) (hdvd : dims ∣ total) {i : Nat} (hi : i < total)
    (hSB : scanBounds dims total code rmin rmax MIN MAX (i + 1))
    (hLI : litmaxInv dims total code rmin rmax LITMAX (i + 1))
    (hm : MIN.testBit i = code.testBit i) (hM : MAX.testBit i = code.testBit i) :
    litmaxInv dims total code rmin rmax LITMAX i := by
  have hzbit : ∀ z, z < 2 ^ total → inBoxW z rmin rmax dims total →
      eqAbove z code (i + 1) → eqAbove z code i := by
    intro z hz hzbox hzeq
    refine eqAbove_step hzeq ?_
    rw [cand_bit hdims hdvd hi hSB (hm.trans hM.symm) hz hzbox hzeq, hm]
  rcases hLI with ⟨h0, hall⟩ | ⟨hbox, hgt, hlt, ⟨jb, hjb1, hjb2, hjbeq, hjbx, hjbc⟩, hmin⟩
  · exact Or.inl ⟨h0, fun z hz hzbox hcz => hzbit z hz hzbox (hall z hz hzbox hcz)⟩
  · refine Or.inr ⟨hbox, hgt, hlt, ⟨jb, by omega, hjb2, hjbeq, hjbx, hjbc⟩, ?_⟩
    intro z hz hzbox hcz
    rcases hmin z hz hzbox hcz with hzeq | hle
    · exact Or.inl (hzbit z hz hzbox hzeq)
    · exact Or.inr hle

/-- The split case CODE[i] = 1, MIN[i] = 0, MAX[i] = 1 of the LITMAX scan:
the freshly captured LITMAX = LOAD(0111..., MAX) becomes the greatest box
member below CODE among those branching at a position ≥ i. -/
theorem step_litmax_split {dims total code rmin rmax MIN MAX LITMAX : Nat}
    (hdims : 0 < dims) (hdvd : dims ∣ total) {i : Nat} (hi : i < total)
    (hSB : scanBounds dims total code rmin rmax MIN MAX (i + 1))
    (hLI : litmaxInv dims total code rmin rmax LITMAX (i + 1))
    (hc : code.testBit i = true) (hm : MIN.testBit i = false) (hM : MAX.testBit i = true) :
    litmaxInv dims total code rmin rmax (load0111 MAX i dims) i := by
  obtain ⟨hMIN, hMAX, hAmin, hAmax, hEV, hC2⟩ := hSB
  have hd : i % dims < dims := Nat.mod_lt _ hdims
  have hself := coordW_load0111_self hdims hdvd hi MAX
  have hqmin : coordW MIN (i % dims) dims total >>> (i / dims + 1)
      = coordW code (i % dims) dims total >>> (i / dims + 1) := coordW_prefix hdims hAmin
  have hqmax : coordW MAX (i % dims) dims total >>> (i / dims + 1)
      = coordW code (i % dims) dims total >>> (i / dims + 1) := coordW_prefix hdims hAmax
  have hLeq : eqAbove (load0111 MAX i dims) code (i + 1) := by
    intro j hj
    rw [testBit_load0111 hdims, if_neg (by omega), if_neg (by rintro ⟨_, hh⟩; omega)]
    exact hAmax j hj
  have hLbit : (load0111 MAX i dims).testBit i = false := by
    rw [testBit_load0111 hdims, if_pos rfl]
  have hLlt : load0111 MAX i dims < code := lt_of_bit_lt hLeq hLbit hc
  have hLsize : load0111 MAX i dims < 2 ^ total := load0111_lt hdims hMAX hi
  have hmlt : coordW MIN (i % dims) dims total % 2 ^ (i / dims + 1) < 2 ^ (i / dims) :=
    mod_pow_succ_lt (by rw [coordW_bit_at hdims hdvd hi, hm])
  have hMge : 2 ^ (i / dims) ≤ coordW MAX (i % dims) dims total % 2 ^ (i / dims + 1) :=
    mod_pow_succ_ge (by rw [coordW_bit_at hdims hdvd hi, hM])
  have hdecMIN := shiftRight_decomp (coordW MIN (i % dims) dims total) (i / dims + 1)
  have hdecMAX := shiftRight_decomp (coordW MAX (i % dims) dims total) (i / dims + 1)
  rw [hqmin, ← hqmax] at hdecMIN
  have hpow : (0 : Nat) < 2 ^ (i / dims) := Nat.two_pow_pos _
  have hLbox : inBoxW (load0111 MAX i dims) rmin rmax dims total := by
    intro d' hd'
    obtain ⟨hE1, hE2, hV⟩ := hEV d' hd'
    by_cases hdd : d' = i % dims
    · subst hdd
      rw [hself]
      exact ⟨by omega, by omega⟩
    · rw [coordW_load0111_other hdims hdd hd']
      exact ⟨le_trans hE1 hV, hE2⟩
  have hle : ∀ z, z < 2 ^ total → inBoxW z rmin rmax dims total →
      eqAbove z code (i + 1) → z.testBit i = false → z ≤ load0111 MAX i dims := by
    intro z hz hzbox hzeq hzbit
    have hzMM := hC2 z hz hzbox hzeq
    apply mono_coordW hdims hdvd hz hLsize
    intro d' hd'
    obtain ⟨hzm, hzM⟩ := hzMM d' hd'
    by_cases hdd : d' = i % dims
    · subst hdd
      rw [hself]
      have hqz : coordW z (i % dims) dims total >>> (i / dims + 1)
          = coordW code (i % dims) dims total >>> (i / dims + 1) :=
        coordW_prefix hdims hzeq
      have hzlt : coordW z (i % dims) dims total % 2 ^ (i / dims + 1) < 2 ^ (i / dims) :=
        mod_pow_succ_lt (by rw [coordW_bit_at hdims hdvd hi, hzbit])
      have hdecz := shiftRight_decomp (coordW z (i % dims) dims total) (i / dims + 1)
      rw [hqz, ← hqmax] at hdecz
      omega
    · rw [coordW_load0111_other hdims hdd hd']
      exact hzM
  refine Or.inr ⟨hLbox, hLlt, hLsize, ⟨i, le_rfl, hi, hLeq, hLbit, hc⟩, ?_⟩
  intro z hz hzbox hcz
  rcases hLI with ⟨h0, hall⟩ | ⟨hbox2, hgt2, hlt2, ⟨jb, hjb1, hjb2, hjbeq, hjbx, hjbc⟩, hmin2⟩
  · have hzeq := hall z hz hzbox hcz
    cases hzb : z.testBit i
    · exact Or.inr (hle z hz hzbox hzeq hzb)
    · exact Or.inl (eqAbove_step hzeq (by rw [hzb, hc]))
  · rcases hmin2 z hz hzbox hcz with hzeq | hzle
    · cases hzb : z.testBit i
      · exact Or.inr (hle z hz hzbox hzeq hzb)
      · exact Or.inl (eqAbove_step hzeq (by rw [hzb, hc]))
    · have hLL : LITMAX < load0111 MAX i dims := branch_gt hjbeq hjbx hjbc hLeq (by omega)
      exact Or.inr (by omega)

/-- Terminal case CODE[i] = 0, MIN[i] = MAX[i] = 1 of the LITMAX scan:
every remaining candidate is above CODE, so LITMAX already holds the
answer. -/
theorem return_litmax_goal {dims total code rmin rmax MIN MAX LITMAX : Nat}
    (hdims : 0 < dims) (hdvd : dims ∣ total) {i : Nat} (hi : i < total)
    (hSB : scanBounds dims total code rmin rmax MIN MAX (i + 1))
    (hLI : litmaxInv dims total code rmin rmax LITMAX (i + 1))
    (hc : code.testBit i = false) (hm : MIN.testBit i = true) (hM : MAX.testBit i = true) :
    prevGoal dims total code rmin rmax LITMAX := by
  have hzgt : ∀ z, z < 2 ^ total → inBoxW z rmin rmax dims total →
      eqAbove z code (i + 1) → code < z := by
    intro z hz hzbox hzeq
    have hzb := cand_bit hdims hdvd hi hSB (hm.trans hM.symm) hz hzbox hzeq
    rw [hm] at hzb
    exact lt_of_bit_lt (eqAbove_symm hzeq) hc hzb
  rcases hLI with ⟨h0, hall⟩ | ⟨hbox2, hgt2, hlt2, _, hmin2⟩
  · left
    refine ⟨h0, ?_⟩
    intro z hz hzbox
    by_contra hcz
    push_neg at hcz
    exact absurd (hzgt z hz hzbox (hall z hz hzbox hcz)) (by omega)
  · right
    refine ⟨hbox2, hgt2, hlt2, ?_⟩
    intro z hz hzbox hcz
    rcases hmin2 z hz hzbox hcz with hzeq | hle
    · exact absurd (hzgt z hz hzbox hzeq) (by omega)
    · exact hle

/-- Terminal case CODE[i] = 1, MIN[i] = MAX[i] = 0 of the LITMAX scan: the
working MAX is the greatest box member below CODE. -/
theorem return_max_goal {dims total code rmin rmax MIN MAX LITMAX : Nat}
    (hdims : 0 < dims) (hdvd : dims ∣ total) {i : Nat} (hi : i < total)
    (hSB : scanBounds dims total code rmin rmax MIN MAX (i + 1))
    (hLI : litmaxInv dims total code rmin rmax LITMAX (i + 1))
    (hc : code.testBit i = true) (hM : MAX.testBit i = false) :
    prevGoal dims total code rmin rmax MAX := by
  have hSB' := hSB
  obtain ⟨hMIN, hMAX, hAmin, hAmax, hEV, hC2⟩ := hSB
  right
  refine ⟨?_, lt_of_bit_lt hAmax hM hc, hMAX, ?_⟩
  · intro d' hd'
    obtain ⟨hE1, hE2, hV⟩ := hEV d' hd'
    exact ⟨le_trans hE1 hV, hE2⟩
  · intro z hz hzbox hcz
    have hmono : eqAbove z code (i + 1) → z ≤ MAX := by
      intro hzeq
      have hzMM := hC2 z hz hzbox hzeq
      apply mono_coordW hdims hdvd hz hMAX
      intro d' hd'
      exact (hzMM d' hd').2
    rcases hLI with ⟨h0, hall⟩ | ⟨hbox2, hgt2, hlt2, ⟨jb, hjb1, hjb2, hjbeq, hjbx, hjbc⟩, hmin2⟩
    · exact hmono (hall z hz hzbox hcz)
    · rcases hmin2 z hz hzbox hcz with hzeq | hle
      · exact hmono hzeq
      · have : LITMAX < MAX := branch_gt hjbeq hjbx hjbc hAmax (by omega)
        omega

/-- Main correctness of the pyMorton LITMAX scan. -/
theorem prevScanP_main {dims total code rmin rmax : Nat}
    (hdims : 0 < dims) (hdvd : dims ∣ total) (hcode : code < 2 ^ total) :
    ∀ f MIN MAX LITMAX, f ≤ total →
      scanBounds dims total code rmin rmax MIN MAX f →
      litmaxInv dims total code rmin rmax LITMAX f →
      ∃ r, prevScanP dims code MIN MAX LITMAX f = Except.ok r ∧
        prevGoal dims total code rmin rmax r := by
  intro f
  induction f with
  | zero =>
    intro MIN MAX LITMAX _ _ hLI
    refine ⟨LITMAX, rfl, ?_⟩
    rcases hLI with ⟨h0, hall⟩ | ⟨hbox, hgt, hlt, _, hmin⟩
    · left
      refine ⟨h0, ?_⟩
      intro z hz hzbox
      by_contra hcz
      push_neg at hcz
      have := eqAbove_zero_eq (hall z hz hzbox hcz)
      omega
    · right
      refine ⟨hbox, hgt, hlt, ?_⟩
      intro z hz hzbox hcz
      rcases hmin z hz hzbox hcz with he | hle
      · have := eqAbove_zero_eq he
        omega
      · exact hle
  | succ i ih =>
    intro MIN MAX LITMAX hf hSB hLI
    have hi : i < total := by omega
    rcases hc : code.testBit i with _ | _ <;> rcases hm : MIN.testBit i with _ | _ <;>
      rcases hM : MAX.testBit i with _ | _ <;>
      simp only [prevScanP, hc, hm, hM]
    · exact ih MIN MAX LITMAX (by omega)
        (step_keep hdims hdvd hi hSB (by rw [hm, hc]) (by rw [hM, hc]))
        (step_litmax_keep hdims hdvd hi hSB hLI (by rw [hm, hc]) (by rw [hM, hc]))
    · exact ih MIN (load0111 MAX i dims) LITMAX (by omega)
        (step_lower_max hdims hdvd hi hSB hc hm hM)
        (step_litmax_c0 hLI hc)
    · exact (raise_impossible hdims hdvd hi hSB hm hM).elim
    · exact ⟨LITMAX, rfl, return_litmax_goal hdims hdvd hi hSB hLI hc hm hM⟩
    · exact ⟨MAX, rfl, return_max_goal hdims hdvd hi hSB hLI hc hM⟩
    · exact ih (load1000 MIN i dims) MAX (load0111 MAX i dims) (by omega)
        (step_raise_min hdims hdvd hi hSB hc hm hM)
        (step_litmax_split hdims hdvd hi hSB hLI hc hm hM)
    · exact (raise_impossible hdims hdvd hi hSB hm hM).elim
    · exact ih MIN MAX LITMAX (by omega)
        (step_keep hdims hdvd hi hSB (by rw [hm, hc]) (by rw [hM, hc]))
        (step_litmax_keep hdims hdvd hi hSB hLI (by rw [hm, hc]) (by rw [hM, hc]))

/-! ### Transfer between width-bounded and width-free box semantics -/

theorem sliceRead_ext (c start step : Nat) {n1 n2 : Nat} (h12 : n1 ≤ n2)
    (h : ∀ kk, n1 ≤ kk → kk < n2 → c.testBit (start + kk * step) = false) :
    sliceRead c start step n2 = sliceRead c start step n1 := by
  apply Nat.eq_of_testBit_eq
  intro k
  rw [testBit_sliceRead, testBit_sliceRead]
  by_cases h1 : k < n1
  · have h2 : k < n2 := by omega
    simp [h1, h2]
  · by_cases h2 : k < n2
    · rw [h k (by omega) h2]
      simp
    · simp [h1, h2]

theorem coordW_eq_mortonCoord {dims total : Nat} (hdims : 0 < dims) (hdvd : dims ∣ total)
    {n : Nat} (hn : n < 2 ^ total) (d : Nat) :
    coordW n d dims total = mortonCoord n d dims := by
  unfold coordW mortonCoord
  rcases le_or_lt (pyBitLength n) (total / dims) with h | h
  · apply sliceRead_ext n d dims h
    intro kk hkk _
    apply testBit_false_of_pyBitLength_le
    have hk : kk ≤ kk * dims := Nat.le_mul_of_pos_right kk hdims
    omega
  · refine (sliceRead_ext n d dims (le_of_lt h) ?_).symm
    intro kk hkk _
    apply testBit_false_of_pyBitLength_le
    have hpbl : pyBitLength n ≤ total := pyBitLength_le hn
    have htk : total ≤ kk * dims := by
      obtain ⟨t, rfl⟩ := hdvd
      rw [Nat.mul_div_cancel_left t hdims] at hkk
      calc dims * t ≤ dims * kk := Nat.mul_le_mul_left dims hkk
        _ = kk * dims := Nat.mul_comm _ _
    omega

theorem inBoxW_iff_inBox {dims total : Nat} (hdims : 0 < dims) (hdvd : dims ∣ total)
    {z rmin rmax : Nat} (hz : z < 2 ^ total) (hr : rmin < 2 ^ total) (hR : rmax < 2 ^ total) :
    inBoxW z rmin rmax dims total ↔ inBox z rmin rmax dims := by
  constructor
  · intro h d hd
    have h2 := h d hd
    rwa [coordW_eq_mortonCoord hdims hdvd hr, coordW_eq_mortonCoord hdims hdvd hz,
      coordW_eq_mortonCoord hdims hdvd hR] at h2
  · intro h d hd
    have h2 := h d hd
    rwa [← coordW_eq_mortonCoord hdims hdvd hr, ← coordW_eq_mortonCoord hdims hdvd hz,
      ← coordW_eq_mortonCoord hdims hdvd hR] at h2

theorem mono_mortonCoord {dims : Nat} (hdims : 0 < dims) {a b : Nat}
    (h : ∀ d, d < dims → mortonCoord a d dims ≤ mortonCoord b d dims) : a ≤ b := by
  have hdvd : dims ∣ defaultTotal (pyBitLength (max a b)) dims := defaultTotal_dvd _ _ hdims
  have hgt : pyBitLength (max a b) < defaultTotal (pyBitLength (max a b)) dims :=
    defaultTotal_gt _ _ hdims
  have hmax : max a b < 2 ^ defaultTotal (pyBitLength (max a b)) dims :=
    lt_pow_of_pyBitLength_le (by omega)
  have ha : a < 2 ^ defaultTotal (pyBitLength (max a b)) dims :=
    lt_of_le_of_lt (le_max_left a b) hmax
  have hb : b < 2 ^ defaultTotal (pyBitLength (max a b)) dims :=
    lt_of_le_of_lt (le_max_right a b) hmax
  apply mono_coordW hdims hdvd ha hb
  intro d hd
  rw [coordW_eq_mortonCoord hdims hdvd ha, coordW_eq_mortonCoord hdims hdvd hb]
  exact h d hd

theorem inBox_rmin {rmin rmax dims : Nat} (hv : validBox rmin rmax dims) :
    inBox rmin rmin rmax dims := fun d hd => ⟨le_rfl, hv d hd⟩

theorem inBox_rmax {rmin rmax dims : Nat} (hv : validBox rmin rmax dims) :
    inBox rmax rmin rmax dims := fun d hd => ⟨hv d hd, le_rfl⟩

theorem inBox_le_rmax {z rmin rmax dims : Nat} (hdims : 0 < dims)
    (h : inBox z rmin rmax dims) : z ≤ rmax :=
  mono_mortonCoord hdims (fun d hd => (h d hd).2)

theorem rmin_le_inBox {z rmin rmax dims : Nat} (hdims : 0 < dims)
    (h : inBox z rmin rmax dims) : rmin ≤ z :=
  mono_mortonCoord hdims (fun d hd => (h d hd).1)

theorem validBox_le {rmin rmax dims : Nat} (hdims : 0 < dims)
    (hv : validBox rmin rmax dims) : rmin ≤ rmax :=
  mono_mortonCoord hdims hv

/-! ### Top-level scanner specifications -/

theorem pm_next_morton_spec (code : Nat) {rmin rmax dims : Nat} (hdims : 0 < dims)
    (hv : validBox rmin rmax dims) :
    ∃ r, pm_next_morton code rmin rmax dims = Except.ok r ∧
      ((r = 0 ∧ ∀ z, inBox z rmin rmax dims → z ≤ code) ∨
        strictSuccInBox code rmin rmax dims r) := by
  obtain ⟨hc, hr, hR⟩ := lt_two_pow_scanTotal code rmin rmax dims hdims
  have hdvd : dims ∣ scanTotal code rmin rmax dims := defaultTotal_dvd _ _ hdims
  have hbit0 : ∀ x : Nat, x < 2 ^ scanTotal code rmin rmax dims →
      ∀ j, scanTotal code rmin rmax dims ≤ j → x.testBit j = false := by
    intro x hx j hj
    exact Nat.testBit_lt_two_pow (lt_of_lt_of_le hx (Nat.pow_le_pow_right (by omega) hj))
  have hSB : scanBounds dims (scanTotal code rmin rmax dims) code rmin rmax rmin rmax
      (scanTotal code rmin rmax dims) := by
    refine ⟨hr, hR, ?_, ?_, ?_, ?_⟩
    · intro j hj
      rw [hbit0 rmin hr j hj, hbit0 code hc j hj]
    · intro j hj
      rw [hbit0 rmax hR j hj, hbit0 code hc j hj]
    · intro d hd
      refine ⟨le_rfl, le_rfl, ?_⟩
      rw [coordW_eq_mortonCoord hdims hdvd hr, coordW_eq_mortonCoord hdims hdvd hR]
      exact hv d hd
    · intro z _ hzbox _
      exact hzbox
  have hBI : bigminInv dims (scanTotal code rmin rmax dims) code rmin rmax 0
      (scanTotal code rmin rmax dims) := by
    left
    refine ⟨rfl, ?_⟩
    intro z hz _ _ j hj
    rw [hbit0 z hz j hj, hbit0 code hc j hj]
  obtain ⟨r, hrun, hgoal⟩ := nextScanP_main hdims hdvd hc _ rmin rmax 0 le_rfl hSB hBI
  refine ⟨r, hrun, ?_⟩
  rcases hgoal with ⟨h0, hall⟩ | ⟨hbox, hgt, hlt, hmin⟩
  · left
    refine ⟨h0, ?_⟩
    intro z hzbox
    have hz : z < 2 ^ scanTotal code rmin rmax dims :=
      lt_of_le_of_lt (inBox_le_rmax hdims hzbox) hR
    exact hall z hz ((inBoxW_iff_inBox hdims hdvd hz hr hR).mpr hzbox)
  · right
    refine ⟨(inBoxW_iff_inBox hdims hdvd hlt hr hR).mp hbox, hgt, ?_⟩
    intro z hzbox hcz
    have hz : z < 2 ^ scanTotal code rmin rmax dims :=
      lt_of_le_of_lt (inBox_le_rmax hdims hzbox) hR
    exact hmin z hz ((inBoxW_iff_inBox hdims hdvd hz hr hR).mpr hzbox) hcz

theorem pm_prev_morton_spec (code : Nat) {rmin rmax dims : Nat} (hdims : 0 < dims)
    (hv : validBox rmin rmax dims) :
    ∃ r, pm_prev_morton code rmin rmax dims = Except.ok r ∧
      ((r = 0 ∧ ∀ z, inBox z rmin rmax dims → code ≤ z) ∨
        strictPredInBox code rmin rmax dims r) := by
  obtain ⟨hc, hr, hR⟩ := lt_two_pow_scanTotal code rmin rmax dims hdims
  have hdvd : dims ∣ scanTotal code rmin rmax dims := defaultTotal_dvd _ _ hdims
  have hbit0 : ∀ x : Nat, x < 2 ^ scanTotal code rmin rmax dims →
      ∀ j, scanTotal code rmin rmax dims ≤ j → x.testBit j = false := by
    intro x hx j hj
    exact Nat.testBit_lt_two_pow (lt_of_lt_of_le hx (Nat.pow_le_pow_right (by omega) hj))
  have hSB : scanBounds dims (scanTotal code rmin rmax dims) code rmin rmax rmin rmax
      (scanTotal code rmin rmax dims) := by
    refine ⟨hr, hR, ?_, ?_, ?_, ?_⟩
    · intro j hj
      rw [hbit0 rmin hr j hj, hbit0 code hc j hj]
    · intro j hj
      rw [hbit0 rmax hR j hj, hbit0 code hc j hj]
    · intro d hd
      refine ⟨le_rfl, le_rfl, ?_⟩
      rw [coordW_eq_mortonCoord hdims hdvd hr, coordW_eq_mortonCoord hdims hdvd hR]
      exact hv d hd
    · intro z _ hzbox _
      exact hzbox
  have hLI : litmaxInv dims (scanTotal code rmin rmax dims) code rmin rmax 0
      (scanTotal code rmin rmax dims) := by
    left
    refine ⟨rfl, ?_⟩
    intro z hz _ _ j hj
    rw [hbit0 z hz j hj, hbit0 code hc j hj]
  obtain ⟨r, hrun, hgoal⟩ := prevScanP_main hdims hdvd hc _ rmin rmax 0 le_rfl hSB hLI
  refine ⟨r, hrun, ?_⟩
  rcases hgoal with ⟨h0, hall⟩ | ⟨hbox, hgt, hlt, hmin⟩
  · left
    refine ⟨h0, ?_⟩
    intro z hzbox
    have hz : z < 2 ^ scanTotal code rmin rmax dims :=
      lt_of_le_of_lt (inBox_le_rmax hdims hzbox) hR
    exact hall z hz ((inBoxW_iff_inBox hdims hdvd hz hr hR).mpr hzbox)
  · right
    refine ⟨(inBoxW_iff_inBox hdims hdvd hlt hr hR).mp hbox, hgt, ?_⟩
    intro z hzbox hcz
    have hz : z < 2 ^ scanTotal code rmin rmax dims :=
      lt_of_le_of_lt (inBox_le_rmax hdims hzbox) hR
    exact hmin z hz ((inBoxW_iff_inBox hdims hdvd hz hr hR).mpr hzbox) hcz

theorem next_morton_eq_pm (code rmin rmax dims : Nat) (hdims : 0 < dims) :
    next_morton code rmin rmax dims = pm_next_morton code rmin rmax dims := by
  obtain ⟨_, hr, hR⟩ := lt_two_pow_scanTotal code rmin rmax dims hdims
  exact nextScanZ_eq_nextScanP hdims _ _ _ _ le_rfl hr hR

theorem prev_morton_eq_pm (code rmin rmax dims : Nat) (hdims : 0 < dims) :
    prev_morton code rmin rmax dims = pm_prev_morton code rmin rmax dims := by
  obtain ⟨_, hr, hR⟩ := lt_two_pow_scanTotal code rmin rmax dims hdims
  exact prevScanZ_eq_prevScanP hdims _ _ _ _ le_rfl hr hR

theorem next_morton_spec (code : Nat) {rmin rmax dims : Nat} (hdims : 0 < dims)
    (hv : validBox rmin rmax dims) :
    ∃ r, next_morton code rmin rmax dims = Except.ok r ∧
      ((r = 0 ∧ ∀ z, inBox z rmin rmax dims → z ≤ code) ∨
        strictSuccInBox code rmin rmax dims r) := by
  obtain ⟨r, hrun, hgoal⟩ := pm_next_morton_spec code hdims hv
  exact ⟨r, by rw [next_morton_eq_pm code rmin rmax dims hdims]; exact hrun, hgoal⟩

theorem prev_morton_spec (code : Nat) {rmin rmax dims : Nat} (hdims : 0 < dims)
    (hv : validBox rmin rmax dims) :
    ∃ r, prev_morton code rmin rmax dims = Except.ok r ∧
      ((r = 0 ∧ ∀ z, inBox z rmin rmax dims → code ≤ z) ∨
        strictPredInBox code rmin rmax dims r) := by
  obtain ⟨r, hrun, hgoal⟩ := pm_prev_morton_spec code hdims hv
  exact ⟨r, by rw [prev_morton_eq_pm code rmin rmax dims hdims]; exact hrun, hgoal⟩

/-- The pyMorton in_range composition returns true on every member of a
coordinatewise-valid box. -/
theorem pm_in_range_true {r rmin rmax dims : Nat} (hdims : 0 < dims)
    (hv : validBox rmin rmax dims) (hrbox : inBox r rmin rmax dims) :
    pm_in_range r rmin rmax dims = Except.ok true := by
  have hge : rmin ≤ r := rmin_le_inBox hdims hrbox
  have hle : r ≤ rmax := inBox_le_rmax hdims hrbox
  unfold pm_in_range
  rw [if_neg (by omega)]
  by_cases hb : r = rmin ∨ r = rmax
  · rw [if_pos hb]
  · rw [if_neg hb]
    push_neg at hb
    obtain ⟨s, hs, hsgoal⟩ := pm_next_morton_spec r hdims hv
    rcases hsgoal with ⟨h0, hall⟩ | ⟨hsbox, hslt, hsmin⟩
    · exfalso
      have := hall rmax (inBox_rmax hv)
      omega
    · obtain ⟨p, hp, hpgoal⟩ := pm_prev_morton_spec s hdims hv
      rcases hpgoal with ⟨h0p, hallp⟩ | ⟨hpbox, hplt, hpmin⟩
      · exfalso
        have := hallp r hrbox
        omega
      · have h1 : r ≤ p := hpmin r hrbox hslt
        have h2 : p ≤ r := by
          by_contra hc
          push_neg at hc
          have := hsmin p hpbox hc
          omega
        have hrp : r = p := by omega
        rw [hs]
        show (match pm_prev_morton s rmin rmax dims with
          | Except.error e => Except.error e
          | Except.ok p => Except.ok (decide (r = p))) = Except.ok true
        rw [hp]
        simp [hrp]

/-! ### Claim theorems: the amended scanner claims -/

/-- C3 amended: restricted to coordinatewise-valid boxes and in-box query
points, next_morton returns the least in-box code strictly above the query
point (so a value > code on which the pyMorton in_range composition returns
true) whenever the point is not rmax, and 0 when it is rmax; dually
prev_morton returns the greatest in-box code strictly below the point (< code,
in_range true) when the point is not rmin, and 0 when it is rmin.  zCurve's
own in_range cannot be used here since it raises TypeError on interior
points. -/
theorem claim_C3 (code rmin rmax dims : Nat) (hdims : 1 ≤ dims)
    (hv : validBox rmin rmax dims) (hin : inBox code rmin rmax dims) :
    (code = rmax → next_morton code rmin rmax dims = Except.ok 0) ∧
    (code ≠ rmax → ∃ r, next_morton code rmin rmax dims = Except.ok r ∧
        code < r ∧ strictSuccInBox code rmin rmax dims r ∧
        pm_in_range r rmin rmax dims = Except.ok true) ∧
    (code = rmin → prev_morton code rmin rmax dims = Except.ok 0) ∧
    (code ≠ rmin → ∃ r, prev_morton code rmin rmax dims = Except.ok r ∧
        r < code ∧ strictPredInBox code rmin rmax dims r ∧
        pm_in_range r rmin rmax dims = Except.ok true) := by
  refine ⟨?_, ?_, ?_, ?_⟩
  · intro he
    obtain ⟨r, hrun, hgoal⟩ := next_morton_spec code hdims hv
    rcases hgoal with ⟨h0, _⟩ | ⟨hbox, hgt, _⟩
    · rw [hrun, h0]
    · exfalso
      have := inBox_le_rmax hdims hbox
      omega
  · intro hne
    obtain ⟨r, hrun, hgoal⟩ := next_morton_spec code hdims hv
    rcases hgoal with ⟨_, hall⟩ | ⟨hbox, hgt, hmin⟩
    · exfalso
      have h1 := hall rmax (inBox_rmax hv)
      have h2 := inBox_le_rmax hdims hin
      omega
    · exact ⟨r, hrun, hgt, ⟨hbox, hgt, hmin⟩,
        pm_in_range_true hdims hv hbox⟩
  · intro he
    obtain ⟨r, hrun, hgoal⟩ := prev_morton_spec code hdims hv
    rcases hgoal with ⟨h0, _⟩ | ⟨hbox, hgt, _⟩
    · rw [hrun, h0]
    · exfalso
      have := rmin_le_inBox hdims hbox
      omega
  · intro hne
    obtain ⟨r, hrun, hgoal⟩ := prev_morton_spec code hdims hv
    rcases hgoal with ⟨_, hall⟩ | ⟨hbox, hgt, hmin⟩
    · exfalso
      have h1 := hall rmin (inBox_rmin hv)
      have h2 := rmin_le_inBox hdims hin
      omega
    · exact ⟨r, hrun, hgt, ⟨hbox, hgt, hmin⟩,
        pm_in_range_true hdims hv hbox⟩

/-- Witness for the amended C3 at code 2 inside the box [1, 3] with D = 1. -/
theorem claim_C3_witness :
    ∃ r, next_morton 2 1 3 1 = Except.ok r ∧
      2 < r ∧ strictSuccInBox 2 1 3 1 r ∧
      pm_in_range r 1 3 1 = Except.ok true :=
  (claim_C3 2 1 3 1 (by decide) (by decide) (by decide)).2.1 (by decide)

/-- C4 amended: calling the scanners at the range bounds is not the identity:
for coordinatewise-valid boxes, next_morton(rmin, rmin, rmax, D) is the
smallest in-box code strictly greater than rmin (0 when rmin = rmax), and
prev_morton(rmax, rmin, rmax, D) is the largest in-box code strictly smaller
than rmax (0 when rmin = rmax). -/
theorem claim_C4 (rmin rmax dims : Nat) (hdims : 1 ≤ dims)
    (hv : validBox rmin rmax dims) :
    (rmin = rmax → next_morton rmin rmin rmax dims = Except.ok 0 ∧
        prev_morton rmax rmin rmax dims = Except.ok 0) ∧
    (rmin < rmax →
      (∃ r, next_morton rmin rmin rmax dims = Except.ok r ∧
        strictSuccInBox rmin rmin rmax dims r) ∧
      (∃ r, prev_morton rmax rmin rmax dims = Except.ok r ∧
        strictPredInBox rmax rmin rmax dims r)) := by
  constructor
  · intro he
    constructor
    · obtain ⟨r, hrun, hgoal⟩ := next_morton_spec rmin hdims hv
      rcases hgoal with ⟨h0, _⟩ | ⟨hbox, hgt, _⟩
      · rw [hrun, h0]
      · exfalso
        have := inBox_le_rmax hdims hbox
        omega
    · obtain ⟨r, hrun, hgoal⟩ := prev_morton_spec rmax hdims hv
      rcases hgoal with ⟨h0, _⟩ | ⟨hbox, hgt, _⟩
      · rw [hrun, h0]
      · exfalso
        have := rmin_le_inBox hdims hbox
        omega
  · intro hlt
    constructor
    · obtain ⟨r, hrun, hgoal⟩ := next_morton_spec rmin hdims hv
      rcases hgoal with ⟨_, hall⟩ | ⟨hbox, hgt, hmin⟩
      · exfalso
        have := hall rmax (inBox_rmax hv)
        omega
      · exact ⟨r, hrun, hbox, hgt, hmin⟩
    · obtain ⟨r, hrun, hgoal⟩ := prev_morton_spec rmax hdims hv
      rcases hgoal with ⟨_, hall⟩ | ⟨hbox, hgt, hmin⟩
      · exfalso
        have := hall rmin (inBox_rmin hv)
        omega
      · exact ⟨r, hrun, hbox, hgt, hmin⟩

/-- Witness for the amended C4 on the box [1, 3] with D = 1. -/
theorem claim_C4_witness :
    (∃ r, next_morton 1 1 3 1 = Except.ok r ∧ strictSuccInBox 1 1 3 1 r) ∧
      (∃ r, prev_morton 3 1 3 1 = Except.ok r ∧ strictPredInBox 3 1 3 1 r) :=
  (claim_C4 1 3 1 (by decide) (by decide)).2 (by decide)

/-- C7 amended: provided the bounds encode a coordinatewise-valid box, the
decision-table raise is unreachable for every code point and both scanners
return normally; without box validity the raise is reachable even under
rmin ≤ rmax (see the counterexample). -/
theorem claim_C7 (code rmin rmax dims : Nat) (hdims : 1 ≤ dims)
    (hv : validBox rmin rmax dims) :
    (∃ r, next_morton code rmin rmax dims = Except.ok r) ∧
      (∃ r, prev_morton code rmin rmax dims = Except.ok r) := by
  obtain ⟨r1, h1, _⟩ := next_morton_spec code hdims hv
  obtain ⟨r2, h2, _⟩ := prev_morton_spec code hdims hv
  exact ⟨⟨r1, h1⟩, ⟨r2, h2⟩⟩

/-- Witness for the amended C7 at code 2, box [1, 3], D = 1. -/
theorem claim_C7_witness :
    (∃ r, next_morton 2 1 3 1 = Except.ok r) ∧
      (∃ r, prev_morton 2 1 3 1 = Except.ok r) :=
  claim_C7 2 1 3 1 (by decide) (by decide)

/-- C9 amended: for coordinatewise-valid boxes, whenever rmax < code the
BIGMIN accumulator is never assigned and next_morton returns 0; for bounds
that are merely integer-ordered the scan can instead raise ValueError. -/
theorem claim_C9 (code rmin rmax dims : Nat) (hdims : 1 ≤ dims)
    (hv : validBox rmin rmax dims) (hgt : rmax < code) :
    next_morton code rmin rmax dims = Except.ok 0 := by
  obtain ⟨r, hrun, hgoal⟩ := next_morton_spec code hdims hv
  rcases hgoal with ⟨h0, _⟩ | ⟨hbox, hcr, _⟩
  · rw [hrun, h0]
  · exfalso
    have := inBox_le_rmax hdims hbox
    omega

/-- Witness for the amended C9: next_morton(9, 1, 3, 1) = 0. -/
theorem claim_C9_witness : next_morton 9 1 3 1 = Except.ok 0 :=
  claim_C9 9 1 3 1 (by decide) (by decide) (by decide)

end ZCurve
